import Mathlib

/-!
Verification development for the Zambezi in-memory search-engine core
(`src/shared/SegmentPool.h`, `src/shared/DocumentVector.h`,
`src/driver/indexer.c`, `src/driver/retrieval.c`).

The C code is shallowly embedded: 32-bit machine words stored in the integer
arenas are modelled as `Int` values (the code stores `UNKNOWN_SEGMENT = -1`
in link fields and otherwise only non-negative 32-bit quantities; conversions
between `int` and `unsigned int` in the C source are modelled by `u32`, which
takes the value of a word reinterpreted as a 32-bit unsigned integer).
Arenas are modelled as total functions from (segment, offset) to words;
`calloc` zero-initialisation makes the initial arena the constant 0 function.

The PForDelta codec (`OPT4` / `detailed_p4_decode`) and the Bloom filter
(`bloom/BloomFilter.h`) are not part of the sources; they are modelled from
the specification (sections 4.1 and 4.2), see the doc comments below.
-/

/-- Block size of the PForDelta codec (`B = 128` in the spec, `BLOCK_SIZE` in
`pfordelta/opt_p4.h`). -/
def BLOCK_SIZE : Nat := 128

/-- `MAX_INT_VALUE` from SegmentPool.h: the arena capacity `0xFFFFFFFF`. -/
def MAX_INT_VALUE : Nat := 2 ^ 32 - 1

/-- `UNDEFINED_POINTER` (SegmentPool.h line 13): the `-1l` sentinel for the
end of a postings list, modelled on the mathematical integers. -/
def UNDEFINED_POINTER : Int := -1

/-- `UNKNOWN_SEGMENT` (SegmentPool.h line 14): the `-1` marker stored in a
block's next-segment word when there is no next block. -/
def UNKNOWN_SEGMENT : Int := -1

/-- `LESS_THAN(X,Y,R)` (SegmentPool.h line 17): `X < Y` when the pool is
forward (`R = 0`), `X > Y` when it is reversed.  The C comparison converts
the `int` word to `unsigned`, so both sides are natural numbers here. -/
def LESS_THAN (x y : Nat) (r : Bool) : Bool :=
  if r then decide (y < x) else decide (x < y)

/-- `ENCODE_POINTER(S, O)` (SegmentPool.h line 25):
`(((unsigned long) S) << 32) | (unsigned int) O`.  The `|` of the two
operands is addition because the left operand is a multiple of `2^32` and the
right operand is below `2^32`. -/
def ENCODE_POINTER (s o : Nat) : Nat :=
  ((s % 2 ^ 64) * 2 ^ 32) % 2 ^ 64 + o % 2 ^ 32

/-- `DECODE_SEGMENT(P)` (SegmentPool.h line 23): `(int)(P >> 32)`, read as the
32-bit pattern of the resulting `int` (an unsigned value below `2^32`). -/
def DECODE_SEGMENT (p : Nat) : Nat := (p / 2 ^ 32) % 2 ^ 32

/-- `DECODE_OFFSET(P)` (SegmentPool.h line 24): `(unsigned int)(P & 0xFFFFFFFF)`. -/
def DECODE_OFFSET (p : Nat) : Nat := p % 2 ^ 32

/-- Segment part of a (non-negative) `long` pointer value. -/
def ptrSeg (p : Int) : Nat := DECODE_SEGMENT p.toNat

/-- Offset part of a (non-negative) `long` pointer value. -/
def ptrOff (p : Int) : Nat := DECODE_OFFSET p.toNat

/-- Value of a stored machine word reinterpreted as `unsigned int`
(the C conversion applied whenever an `int` arena word meets an
`unsigned int`). -/
def u32 (w : Int) : Nat := (w % (2 ^ 32 : Int)).toNat

/-- An arena store: segment index and word offset to stored word.  The pool's
`int** pool` rows are `calloc`ed, hence initially all zero. -/
def Arena : Type := Nat → Nat → Int

/-- Write one word at (segment `s`, offset `o`). -/
def wr (m : Arena) (s o : Nat) (v : Int) : Arena :=
  fun s' o' => if s' = s ∧ o' = o then v else m s' o'

/-- Write a list of words at consecutive offsets starting at `o`
(the model of a `memcpy` into the arena). -/
def wrList (m : Arena) (s o : Nat) : List Int → Arena
  | [] => m
  | v :: vs => wrList (wr m s o v) s (o + 1) vs

/-- Read `n` consecutive words starting at offset `o`. -/
def rdList (m : Arena) (s o : Nat) : Nat → List Int
  | 0 => []
  | n + 1 => m s o :: rdList m s (o + 1) n

/-- Modelled from the spec: section 4.1 — the missing PForDelta encoder
`OPT4(data, len, out, delta)` from `pfordelta/opt_p4.h` is modelled as an
exact block code.  In delta mode (used for docids) it stores the first value
followed by successive differences; without delta (tf and position
sub-blocks) it stores the values themselves.  The number of words written
(the returned `csize`) is the length of the resulting list. -/
def gapsAux (prev : Int) : List Nat → List Int
  | [] => []
  | d :: t => ((d : Int) - prev) :: gapsAux (d : Int) t

/-- Modelled from the spec: section 4.1 — the PForDelta encode operation.
See `gapsAux`. -/
def OPT4 (data : List Nat) (delta : Bool) : List Int :=
  if delta then gapsAux 0 data else data.map Int.ofNat

/-- Prefix-summing inverse of `gapsAux`. -/
def undeltaAux (prev : Int) : List Int → List Nat
  | [] => []
  | g :: t => (prev + g).toNat :: undeltaAux (prev + g) t

/-- Modelled from the spec: section 4.1 — the missing decoder
`detailed_p4_decode(out, in, aux, delta, reverse)` from
`pfordelta/opt_p4.h`.  With `delta` set it undoes the gap encoding; with
`reverse` set "deltas are applied in the stored direction and then
un-reversed" (spec 4.1), i.e. the decoded values are reversed back into the
order the segment-pool writer saw before it reversed its input (scenario S5
of the spec: a reverse-mode block ingested as `100,99,…` decodes to
`100,99,…`).  The model consumes exactly the words produced by `OPT4`; the
real codec is self-delimiting. -/
def detailed_p4_decode (ws : List Int) (delta reverse : Bool) : List Nat :=
  let vals := if delta then undeltaAux 0 ws else ws.map u32
  if reverse then vals.reverse else vals

/-- Modelled from the spec: section 4.2 — length of a Bloom filter in words,
`bits = ceil(bits_per_element * n / 32)` (the missing
`computeBloomFilterLength` of `bloom/BloomFilter.h`). -/
def computeBloomFilterLength (n bitsPerElement : Nat) : Nat :=
  (n * bitsPerElement + 31) / 32

/-- Modelled from the spec: section 4.2 — the spec leaves the `k` hash
functions of the Bloom filter unspecified; the model fixes a simple concrete
family mapping hash index `i` and a docid into the filter's bit range. -/
def bloomHashBit (i docid nbits : Nat) : Nat :=
  if nbits = 0 then 0 else ((i + 1) * (docid + 1) + i) % nbits

/-- Set bit `b` in a filter stored as 32-bit words. -/
def setBitW (f : List Nat) (b : Nat) : List Nat :=
  f.set (b / 32) (f.getD (b / 32) 0 ||| (1 <<< (b % 32)))

/-- Test bit `b` in a filter stored as 32-bit words. -/
def testBitW (f : List Nat) (b : Nat) : Bool :=
  (f.getD (b / 32) 0 >>> (b % 32)) % 2 = 1

/-- Modelled from the spec: section 4.2 — `insertIntoBloomFilter(filter,
filterSize, nbHash, value)` sets `k = nbHash` bit positions derived from the
value. -/
def insertIntoBloomFilter (f : List Nat) (filterSize nbHash docid : Nat) : List Nat :=
  (List.range nbHash).foldl (fun f i => setBitW f (bloomHashBit i docid (32 * filterSize))) f

/-- The filter built by the `compressAndAdd*` functions: a zeroed buffer of
`filterSize` words into which every docid of the block is inserted
(SegmentPool.h lines 180-187). -/
def bloomFilterOf (data : List Nat) (filterSize nbHash : Nat) : List Nat :=
  data.foldl (fun f d => insertIntoBloomFilter f filterSize nbHash d)
    (List.replicate filterSize 0)

/-- Modelled from the spec: section 4.2 — `containsBloomFilter(filter, words,
nbHash, value)` tests all `nbHash` bit positions; returns 1 or 0 as the C
function returns a truth value.  The filter words are read from the arena,
hence arrive as `Int` words. -/
def containsBloomFilter (filterWords : List Int) (nbHash docid : Nat) : Nat :=
  if (List.range nbHash).all
      (fun i => testBitW (filterWords.map u32) (bloomHashBit i docid (32 * filterWords.length)))
  then 1 else 0

/-- The segment pool (SegmentPool.h lines 29-42). -/
structure SegmentPool where
  numberOfPools : Nat
  segment : Nat
  offset : Nat
  reverse : Bool
  bloomEnabled : Bool
  nbHash : Nat
  bitsPerElement : Nat
  mem : Arena

/-- `createSegmentPool` (SegmentPool.h lines 103-119): fresh cursor,
zeroed (calloc) arenas. -/
def createSegmentPool (numberOfPools : Nat) (reverse bloomEnabled : Bool)
    (nbHash bitsPerElement : Nat) : SegmentPool :=
  { numberOfPools := numberOfPools
    segment := 0
    offset := 0
    reverse := reverse
    bloomEnabled := bloomEnabled
    nbHash := nbHash
    bitsPerElement := bitsPerElement
    mem := fun _ _ => 0 }

/-- The common tail of the three `compressAndAdd*` functions: decode the tail
pointer (lines 170-175), roll to a fresh segment if the block does not fit
(lines 202-205), lay the block's words down at the cursor (lines 207-223: the
header words, payload and optional Bloom filter are written at consecutive
offsets, gathered here into one word list `ws`), link the block (lines
225-233: forward mode patches the previous block's next words, reverse mode
sets the new block's next words), advance the cursor and return the encoded
pointer of the new block (lines 235-240). -/
def appendBlock (pool : SegmentPool) (reqspace : Nat) (ws : List Int)
    (tailPointer : Int) : SegmentPool × Int :=
  let lastSegment : Int :=
    if tailPointer = UNDEFINED_POINTER then -1 else Int.ofNat (ptrSeg tailPointer)
  let lastOffset : Nat :=
    if tailPointer = UNDEFINED_POINTER then 0 else ptrOff tailPointer
  let seg := if reqspace > MAX_INT_VALUE - pool.offset then pool.segment + 1 else pool.segment
  let off := if reqspace > MAX_INT_VALUE - pool.offset then 0 else pool.offset
  let m1 := wrList pool.mem seg off ws
  let m2 :=
    if 0 ≤ lastSegment then
      if pool.reverse then
        wr (wr m1 seg (off + 1) lastSegment) seg (off + 2) (Int.ofNat lastOffset)
      else
        wr (wr m1 lastSegment.toNat (lastOffset + 1) (Int.ofNat seg))
          lastSegment.toNat (lastOffset + 2) (Int.ofNat off)
    else m1
  ({ pool with segment := seg, offset := off + reqspace, mem := m2 },
   Int.ofNat (ENCODE_POINTER seg off))

/-- The segment the next block of `reqspace` words is written to (the roll
test of SegmentPool.h lines 202-205). -/
def segAfter (pool : SegmentPool) (reqspace : Nat) : Nat :=
  if reqspace > MAX_INT_VALUE - pool.offset then pool.segment + 1 else pool.segment

/-- The offset the next block of `reqspace` words is written at. -/
def offAfter (pool : SegmentPool) (reqspace : Nat) : Nat :=
  if reqspace > MAX_INT_VALUE - pool.offset then 0 else pool.offset

/-- `compressAndAddNonPositional` (SegmentPool.h lines 168-241).  The Bloom
filter is built over the docids before the in-place reversal (lines 180-187);
`maxDocId` is `data[0]` in reverse mode and `data[len-1]` otherwise (line
189); reverse mode reverses the data before encoding (lines 191-198);
`reqspace = csize + filterSize + 8` (line 201).  The words laid out at the
block start are `reqspace, UNKNOWN_SEGMENT, 0, maxDocId, csize + 7, len,
csize`, the compressed docids, and, when Bloom filters are enabled,
`filterSize` followed by the filter words (lines 207-223). -/
def compressAndAddNonPositional (pool : SegmentPool) (data : List Nat)
    (tailPointer : Int) : SegmentPool × Int :=
  let len := data.length
  let filterSize := if pool.bloomEnabled then computeBloomFilterLength len pool.bitsPerElement else 0
  let filter := bloomFilterOf data filterSize pool.nbHash
  let maxDocId := if pool.reverse then data.head?.getD 0 else data.getLast?.getD 0
  let block := OPT4 (if pool.reverse then data.reverse else data) true
  let csize := block.length
  let reqspace := csize + filterSize + 8
  appendBlock pool reqspace
    ([Int.ofNat reqspace, UNKNOWN_SEGMENT, 0, Int.ofNat maxDocId, Int.ofNat (csize + 7),
      Int.ofNat len, Int.ofNat csize]
     ++ block
     ++ (if pool.bloomEnabled then Int.ofNat filterSize :: filter.map Int.ofNat else []))
    tailPointer

/-- `compressAndAddTfOnly` (SegmentPool.h lines 255-341).  In reverse mode
both the docids and the term frequencies are reversed (lines 278-289);
`reqspace = csize + tfcsize + filterSize + 9` (line 296); word 4 holds
`csize + tfcsize + 8` (line 306); after the compressed docids come `tfcsize`
and the compressed term frequencies (lines 313-315), then the optional Bloom
sub-header (lines 317-321). -/
def compressAndAddTfOnly (pool : SegmentPool) (data tf : List Nat)
    (tailPointer : Int) : SegmentPool × Int :=
  let len := data.length
  let filterSize := if pool.bloomEnabled then computeBloomFilterLength len pool.bitsPerElement else 0
  let filter := bloomFilterOf data filterSize pool.nbHash
  let maxDocId := if pool.reverse then data.head?.getD 0 else data.getLast?.getD 0
  let block := OPT4 (if pool.reverse then data.reverse else data) true
  let tfblock := OPT4 (if pool.reverse then tf.reverse else tf) false
  let csize := block.length
  let tfcsize := tfblock.length
  let reqspace := csize + tfcsize + filterSize + 9
  appendBlock pool reqspace
    ([Int.ofNat reqspace, UNKNOWN_SEGMENT, 0, Int.ofNat maxDocId,
      Int.ofNat (csize + tfcsize + 8), Int.ofNat len, Int.ofNat csize]
     ++ block
     ++ (Int.ofNat tfcsize :: tfblock)
     ++ (if pool.bloomEnabled then Int.ofNat filterSize :: filter.map Int.ofNat else []))
    tailPointer

/-- Positions of the `i`-th docid occupy the next `tf[i]` slots of the
position stream: split the stream into per-docid runs. -/
def splitRuns : List Nat → List Nat → List (List Nat)
  | [], _ => []
  | t :: ts, ps => ps.take t :: splitRuns ts (ps.drop t)

/-- The 128-position sub-blocks of a position stream (SegmentPool.h lines
413-432): `plen / BLOCK_SIZE` full sub-blocks followed by one residual
sub-block when `plen % BLOCK_SIZE > 0`. -/
def posChunks (ps : List Nat) : List (List Nat) :=
  (List.range (ps.length / BLOCK_SIZE)).map
    (fun j => (ps.drop (j * BLOCK_SIZE)).take BLOCK_SIZE)
  ++ (if ps.length % BLOCK_SIZE > 0 then [ps.drop (ps.length / BLOCK_SIZE * BLOCK_SIZE)] else [])

/-- The compressed position area `pblock` (SegmentPool.h lines 413-432): each
sub-block is stored as its compressed word count followed by its words. -/
def pblockOf (ps : List Nat) : List Int :=
  ((posChunks ps).map (fun c => Int.ofNat (OPT4 c false).length :: OPT4 c false)).flatten

/-- `compressAndAddPositional` (SegmentPool.h lines 357-489).  In reverse
mode the position stream is rebuilt by emitting each docid's positions while
walking the docids from last to first (lines 384-392, `splitRuns` followed by
reversing the run list), then docids and term frequencies are reversed;
`reqspace = csize + tfcsize + pcsize + filterSize + 11` (line 435); word 4
holds `csize + tfcsize + pcsize + 10` (line 445); after the tf area come
`plen` and the number of position sub-blocks, then the compressed position
area (lines 456-459), then the optional Bloom sub-header (lines 461-465).
The C function receives `plen` as a parameter; every call site passes the
length of the position stream, modelled here as `positions.length`. -/
def compressAndAddPositional (pool : SegmentPool) (data tf positions : List Nat)
    (tailPointer : Int) : SegmentPool × Int :=
  let len := data.length
  let filterSize := if pool.bloomEnabled then computeBloomFilterLength len pool.bitsPerElement else 0
  let filter := bloomFilterOf data filterSize pool.nbHash
  let maxDocId := if pool.reverse then data.head?.getD 0 else data.getLast?.getD 0
  let positions2 := if pool.reverse then ((splitRuns tf positions).reverse).flatten else positions
  let block := OPT4 (if pool.reverse then data.reverse else data) true
  let tfblock := OPT4 (if pool.reverse then tf.reverse else tf) false
  let csize := block.length
  let tfcsize := tfblock.length
  let pblock := pblockOf positions2
  let pcsize := pblock.length
  let reqspace := csize + tfcsize + pcsize + filterSize + 11
  appendBlock pool reqspace
    ([Int.ofNat reqspace, UNKNOWN_SEGMENT, 0, Int.ofNat maxDocId,
      Int.ofNat (csize + tfcsize + pcsize + 10), Int.ofNat len, Int.ofNat csize]
     ++ block
     ++ (Int.ofNat tfcsize :: tfblock)
     ++ (Int.ofNat positions.length :: Int.ofNat (posChunks positions2).length :: pblock)
     ++ (if pool.bloomEnabled then Int.ofNat filterSize :: filter.map Int.ofNat else []))
    tailPointer

/-- `nextPointer` (SegmentPool.h lines 497-510). -/
def nextPointer (pool : SegmentPool) (pointer : Int) : Int :=
  if pointer = UNDEFINED_POINTER then UNDEFINED_POINTER
  else
    let pSegment := ptrSeg pointer
    let pOffset := ptrOff pointer
    if pool.mem pSegment (pOffset + 1) = UNKNOWN_SEGMENT then UNDEFINED_POINTER
    else
      Int.ofNat (ENCODE_POINTER (pool.mem pSegment (pOffset + 1)).toNat
        (pool.mem pSegment (pOffset + 2)).toNat)

/-- `decompressDocidBlock` (SegmentPool.h lines 518-527): returns the stored
`len` (word 5) and the decoded buffer.  The compressed words start at word 7;
the model reads the stored `csize` (word 6) to delimit the self-delimiting
stream. -/
def decompressDocidBlock (pool : SegmentPool) (pointer : Int) : Nat × List Nat :=
  let pSegment := ptrSeg pointer
  let pOffset := ptrOff pointer
  let csize := u32 (pool.mem pSegment (pOffset + 6))
  (u32 (pool.mem pSegment (pOffset + 5)),
   detailed_p4_decode (rdList pool.mem pSegment (pOffset + 7) csize) true pool.reverse)

/-- Chain traversal as performed by the query drivers: decode the block at
the current pointer (keeping the `len` values the caller reads from the
output buffer), follow `nextPointer`, stop at `UNDEFINED_POINTER`.  `fuel`
bounds the number of blocks visited. -/
def chainDecode (pool : SegmentPool) : Int → Nat → List (List Nat)
  | _, 0 => []
  | p, fuel + 1 =>
    if p = UNDEFINED_POINTER then []
    else
      let pr := decompressDocidBlock pool p
      pr.2.take pr.1 :: chainDecode pool (nextPointer pool p) fuel

/-- The while loop of `containsDocid` (SegmentPool.h lines 642-661), with
explicit fuel: advance while the block's `max_docid` (word 3) is below the
probe under the pool's ordering; when the chain runs out return 0 with the
caller's pointer set to `UNDEFINED_POINTER`; on an exact `max_docid` match
return 1 leaving the caller's pointer at its original value `porig`; else
consult the Bloom filter found through word 4 and set the caller's pointer to
the block inspected.  `none` means the fuel ran out (unreachable on
well-formed chains). -/
def containsLoop (pool : SegmentPool) (docid : Nat) (porig : Int) :
    Nat → Nat → Nat → Option (Nat × Int)
  | _, _, 0 => none
  | pSegment, pOffset, fuel + 1 =>
    if LESS_THAN (u32 (pool.mem pSegment (pOffset + 3))) docid pool.reverse then
      let nSegment := pool.mem pSegment (pOffset + 1)
      let nOffset := pool.mem pSegment (pOffset + 2)
      if nSegment = UNKNOWN_SEGMENT then some (0, UNDEFINED_POINTER)
      else containsLoop pool docid porig nSegment.toNat nOffset.toNat fuel
    else if u32 (pool.mem pSegment (pOffset + 3)) = docid then some (1, porig)
    else
      let bloomOffset := u32 (pool.mem pSegment (pOffset + 4))
      some (containsBloomFilter
              (rdList pool.mem pSegment (pOffset + bloomOffset + 1)
                (u32 (pool.mem pSegment (pOffset + bloomOffset))))
              pool.nbHash docid,
            Int.ofNat (ENCODE_POINTER pSegment pOffset))

/-- `containsDocid` (SegmentPool.h lines 635-662).  The C function
communicates through `long* pointer`; the model returns the pair of the
result and the final value of `*pointer`. -/
def containsDocid (pool : SegmentPool) (docid : Nat) (pointer : Int)
    (fuel : Nat) : Option (Nat × Int) :=
  if pointer = UNDEFINED_POINTER then some (0, pointer)
  else containsLoop pool docid pointer (ptrSeg pointer) (ptrOff pointer) fuel

/-- `isTermFrequencyPresent` (SegmentPool.h lines 133-140), verbatim: it
reads word 0 and word 4 of the first block and compares. -/
def isTermFrequencyPresent (pool : SegmentPool) : Nat :=
  let reqspace := pool.mem 0 0
  let csize := pool.mem 0 4
  if csize + 5 = reqspace then 0 else 1

/-- `isPositional` (SegmentPool.h lines 145-156), verbatim: the second read
indexes the arena with the `int` value of word 4 plus 5. -/
def isPositional (pool : SegmentPool) : Nat :=
  let reqspace := pool.mem 0 0
  let csize := pool.mem 0 4
  if csize + 5 = reqspace then 0
  else
    let tfcsize := pool.mem 0 (csize.toNat + 5)
    if csize + tfcsize + 6 = reqspace then 0 else 1

/-- One call to one of the three `compressAndAdd*` functions. -/
inductive AppendCall where
  | nonpos (data : List Nat)
  | tfonly (data tf : List Nat)
  | positional (data tf positions : List Nat)

/-- The docid run of a call. -/
def callData : AppendCall → List Nat
  | .nonpos d => d
  | .tfonly d _ => d
  | .positional d _ _ => d

/-- The word count a call adds beyond the 7-word header, the compressed
docids and the final Bloom area: nothing for a non-positional call, the
compressed tf area plus its length word for a tf-only call, and additionally
the position area with its two length words for a positional call. -/
def extraWords (pool : SegmentPool) : AppendCall → Nat
  | .nonpos _ => 0
  | .tfonly _ t => (OPT4 (if pool.reverse then t.reverse else t) false).length + 1
  | .positional _ t ps =>
      (OPT4 (if pool.reverse then t.reverse else t) false).length + 1 +
      ((pblockOf (if pool.reverse then ((splitRuns t ps).reverse).flatten else ps)).length + 2)

/-- Dispatch a call against the pool. -/
def applyCall (pool : SegmentPool) (c : AppendCall) (tailPointer : Int) :
    SegmentPool × Int :=
  match c with
  | .nonpos d => compressAndAddNonPositional pool d tailPointer
  | .tfonly d t => compressAndAddTfOnly pool d t tailPointer
  | .positional d t ps => compressAndAddPositional pool d t ps tailPointer

/-- Chain construction as the indexer performs it (indexer.c lines 291-339):
each call receives the pointer returned by the previous call as its tail
pointer; the head pointer is set on every flush in reverse mode and only once
(when still undefined) in forward mode (indexer.c line 312). -/
def buildChainFrom (pool : SegmentPool) (tailPointer headPointer : Int) :
    List AppendCall → SegmentPool × Int × Int
  | [] => (pool, tailPointer, headPointer)
  | c :: cs =>
    let r := applyCall pool c tailPointer
    buildChainFrom r.1 r.2
      (if pool.reverse = true ∨ headPointer = UNDEFINED_POINTER then r.2 else headPointer) cs

/-- Build a term chain in a pool starting from no postings. -/
def buildChain (pool : SegmentPool) (cs : List AppendCall) : SegmentPool × Int × Int :=
  buildChainFrom pool UNDEFINED_POINTER UNDEFINED_POINTER cs

/-- The sequence of pointers returned by the successive `compressAndAdd*`
calls of a chain construction. -/
def chainTrace (pool : SegmentPool) (tailPointer : Int) : List AppendCall → List Int
  | [] => []
  | c :: cs =>
    let r := applyCall pool c tailPointer
    r.2 :: chainTrace r.1 r.2 cs

/-- Well-formedness of the inputs of one `compressAndAdd*` call, matching the
call sites in indexer.c: a non-empty run of at most `BLOCK_SIZE` 32-bit
docids, a tf array parallel to the docid array, and a position stream of
bounded length. -/
def ValidCall : AppendCall → Prop
  | .nonpos d => d ≠ [] ∧ (∀ x ∈ d, x < 2 ^ 32) ∧ d.length ≤ BLOCK_SIZE
  | .tfonly d t => d ≠ [] ∧ (∀ x ∈ d, x < 2 ^ 32) ∧ d.length ≤ BLOCK_SIZE ∧ t.length = d.length
  | .positional d t ps =>
      d ≠ [] ∧ (∀ x ∈ d, x < 2 ^ 32) ∧ d.length ≤ BLOCK_SIZE ∧ t.length = d.length ∧
      ps.length ≤ 2 ^ 20

instance : ∀ c, Decidable (ValidCall c) := by
  intro c
  cases c <;> (unfold ValidCall; infer_instance)

/-- The location and contents of one block written into the pool. -/
structure BlockInfo where
  seg : Nat
  off : Nat
  reqspace : Nat
  maxDoc : Nat
  len : Nat
  csize : Nat
  bloomBase : Nat
  filterSize : Nat
  words : List Int
  run : List Nat
  filter : List Nat

/-- The pointer of a block. -/
def ptrOfB (b : BlockInfo) : Int := Int.ofNat (ENCODE_POINTER b.seg b.off)

/-- Lexicographic order on (segment, offset) cells. -/
def cellLe : Nat × Nat → Nat × Nat → Prop
  | (s1, o1), (s2, o2) => s1 < s2 ∨ (s1 = s2 ∧ o1 ≤ o2)

/-- Start cell of a block's region. -/
def startOf (b : BlockInfo) : Nat × Nat := (b.seg, b.off)

/-- One-past-the-end cell of a block's region. -/
def endOf (b : BlockInfo) : Nat × Nat := (b.seg, b.off + b.reqspace)

/-- What the arena holds at a written block, together with the arithmetic
relations its fields satisfy.  The link words (1 and 2) are deliberately not
covered: they are owned by the chain structure. -/
structure BlockFacts (pool : SegmentPool) (b : BlockInfo) : Prop where
  w0 : pool.mem b.seg b.off = Int.ofNat b.reqspace
  w3 : pool.mem b.seg (b.off + 3) = Int.ofNat b.maxDoc
  w4 : pool.mem b.seg (b.off + 4) = Int.ofNat b.bloomBase
  w5 : pool.mem b.seg (b.off + 5) = Int.ofNat b.len
  w6 : pool.mem b.seg (b.off + 6) = Int.ofNat b.csize
  wdoc : rdList pool.mem b.seg (b.off + 7) b.csize = b.words
  wbloom : pool.bloomEnabled = true →
    pool.mem b.seg (b.off + b.bloomBase) = Int.ofNat b.filterSize ∧
    rdList pool.mem b.seg (b.off + b.bloomBase + 1) b.filterSize = b.filter.map Int.ofNat
  hwords : b.words = OPT4 (if pool.reverse then b.run.reverse else b.run) true
  hcsize : b.csize = b.words.length
  hlen : b.len = b.run.length
  hmax : b.maxDoc = (if pool.reverse then b.run.head?.getD 0 else b.run.getLast?.getD 0)
  hmax32 : b.maxDoc < 2 ^ 32
  hfilter : b.filter = bloomFilterOf b.run b.filterSize pool.nbHash
  hfsize : b.filterSize =
    (if pool.bloomEnabled then computeBloomFilterLength b.run.length pool.bitsPerElement else 0)
  h8 : 8 ≤ b.reqspace
  hcs7 : b.csize + 7 ≤ b.reqspace
  hbb7 : 7 ≤ b.bloomBase
  hbbfs : b.bloomBase + b.filterSize + 1 ≤ b.reqspace
  hoff32 : b.off + b.reqspace ≤ 2 ^ 32
  hseg31 : b.seg < 2 ^ 31

/-- Link relation between consecutive blocks in traversal order. -/
def linkRel (m : Arena) (a b : BlockInfo) : Prop :=
  m a.seg (a.off + 1) = Int.ofNat b.seg ∧ m a.seg (a.off + 2) = Int.ofNat b.off

/-- Each block's next words address the following block of the list. -/
def ChainedLinks (m : Arena) : List BlockInfo → Prop
  | [] => True
  | [_] => True
  | a :: b :: t => linkRel m a b ∧ ChainedLinks m (b :: t)

/-- A list of blocks in traversal order: consecutive links hold and the last
block carries the `UNKNOWN_SEGMENT` marker. -/
def Chained (m : Arena) (bs : List BlockInfo) : Prop :=
  ChainedLinks m bs ∧
  ∀ b, bs.getLast? = some b → m b.seg (b.off + 1) = UNKNOWN_SEGMENT

/-- A chain living in a pool: block facts plus traversal links. -/
def ChainAt (pool : SegmentPool) (bs : List BlockInfo) : Prop :=
  (∀ b ∈ bs, BlockFacts pool b) ∧ Chained pool.mem bs

/-- Invariant carried while a chain is being built.  `infos` lists the blocks
in append order. -/
structure PoolInv (pool : SegmentPool) (infos : List BlockInfo)
    (tailPointer headPointer : Int) : Prop where
  facts : ∀ b ∈ infos, BlockFacts pool b
  links : Chained pool.mem (if pool.reverse then infos.reverse else infos)
  fits : ∀ b ∈ infos, cellLe (endOf b) (pool.segment, pool.offset)
  disj : infos.Pairwise (fun a b => cellLe (endOf a) (startOf b))
  offle : pool.offset ≤ MAX_INT_VALUE
  seg31 : pool.segment < 2 ^ 31
  htail : tailPointer = ((infos.getLast?).map ptrOfB).getD UNDEFINED_POINTER
  hhead : headPointer =
    (((if pool.reverse then infos.getLast? else infos.head?)).map ptrOfB).getD UNDEFINED_POINTER

/-- Reference description of `containsDocid` over the per-call runs of a
bloom-enabled chain, following the amended claim: walk the blocks in
traversal order (each given by its ingested run and its pointer) while the
block maximum is below the probe under the pool's ordering; if the chain runs
out, answer 0 and `UNDEFINED_POINTER`; on an exact match answer 1 with the
caller's pointer left at its original value `porig`; otherwise answer the
Bloom membership bit at the first non-smaller block and move the caller's
pointer to that block. -/
def containsDocidModel (rev : Bool) (nbHash bitsPerElement : Nat) (porig : Int)
    (docid : Nat) : List (List Nat × Int) → Nat × Int
  | [] => (0, UNDEFINED_POINTER)
  | (run, ptr) :: rest =>
    let maxDoc := if rev then run.head?.getD 0 else run.getLast?.getD 0
    if LESS_THAN maxDoc docid rev then
      containsDocidModel rev nbHash bitsPerElement porig docid rest
    else if maxDoc = docid then (1, porig)
    else
      (containsBloomFilter
        ((bloomFilterOf run (computeBloomFilterLength run.length bitsPerElement) nbHash).map
          Int.ofNat)
        nbHash docid, ptr)

/-- Modelled from the spec: section 6 — the BM25 tf component computed by
`_default_bm25tf(tf, docLen, avgDocLen)` of `scorer/BM25.h` with the default
parameters `k1 = 0.9`, `b = 0.4`:
`tf * (k1 + 1) / (tf + k1 * (1 - b + b * docLen / avgDocLen))`. -/
def bm25tf (tf docLen : Nat) (avgDocLen : ℚ) : ℚ :=
  (tf * (19 / 10)) / (tf + (9 / 10) * (1 - 2 / 5 + (2 / 5) * docLen / avgDocLen))

/-- The per-term statistics the indexer maintains (totals of
`index->pointers` plus the max-BM25-tf record; the stored maxima start at
zero, modelled from the spec section 4.5). -/
structure IdxState where
  totalDocLen : Nat
  totalDocs : Nat
  maxTf : Nat
  maxTfDocLen : Nat

/-- One document through `process` (indexer.c lines 196-222), restricted to
one term: the totals are updated first (lines 196-198), then, if the term
occurs in the document (`tf ≠ 0`), its BM25 tf score under the current
average document length is compared against the stored maximum and the
maximum is replaced when strictly exceeded (lines 209-222). -/
def processDoc (st : IdxState) (tf docLen : Nat) : IdxState :=
  let st1 := { st with totalDocLen := st.totalDocLen + docLen,
                       totalDocs := st.totalDocs + 1 }
  if tf = 0 then st1
  else
    let avg : ℚ := (st1.totalDocLen : ℚ) / (st1.totalDocs : ℚ)
    if bm25tf tf docLen avg > bm25tf st1.maxTf st1.maxTfDocLen avg then
      { st1 with maxTf := tf, maxTfDocLen := docLen }
    else st1

/-- A document stream through the indexer, one `(tf, docLen)` pair per
document (`tf = 0` when the term does not occur). -/
def processDocs (docs : List (Nat × Nat)) : IdxState :=
  docs.foldl (fun st d => processDoc st d.1 d.2) ⟨0, 0, 0, 0⟩

/-- The document-vector store (DocumentVector.h lines 12-16): per-docid
optional compressed term-id streams. -/
structure DocumentVector where
  capacity : Nat
  length : Nat → Nat
  document : Nat → Option (List Int)

/-- The decode loop of `getDocumentVector` (DocumentVector.h lines 96-102):
`nb` sub-blocks, each stored as its word count followed by its words, decoded
into 128-entry slots of the scratch buffer. -/
def dvDecodeBlocks (dk : List Int) : Nat → Nat → List Nat
  | _, 0 => []
  | pos, n + 1 =>
    let sb := u32 (dk.getD pos 0)
    let vals := detailed_p4_decode ((dk.drop (pos + 1)).take sb) false false
    (vals ++ List.replicate (BLOCK_SIZE - vals.length) 0) ++ dvDecodeBlocks dk (pos + sb + 1) n

/-- `getDocumentVector` (DocumentVector.h lines 90-104).  The caller's output
buffer is passed and returned as a list; the final `memcpy(document, buffer,
length * sizeof(unsigned int))` overwrites its first `length` entries.  In
the guard branch (`k` at or beyond capacity, or no stored vector) the C code
only rebinds the local parameter `document` to NULL and returns, so both the
buffer and the store come back unchanged; the store is returned unchanged in
every branch because the function never writes to `vectors`. -/
def getDocumentVector (vectors : DocumentVector) (document : List Nat)
    (length k : Nat) : List Nat × DocumentVector :=
  if k ≥ vectors.capacity ∨ vectors.document k = none then (document, vectors)
  else
    let dk := (vectors.document k).getD []
    let nb := u32 (dk.headD 0)
    let buffer := dvDecodeBlocks dk 1 nb
    (buffer.take length ++ document.drop length, vectors)

/-- The retrieval algorithms (retrieval.c lines 31-37). -/
inductive Algorithm where
  | SVS
  | WAND
  | MBWAND
  | BWAND_OR
  | BWAND_AND
deriving DecidableEq

/-- The `-algorithm` dispatch of retrieval.c lines 71-85. -/
def algorithmOfString (s : String) : Option Algorithm :=
  if s = "SvS" then some .SVS
  else if s = "WAND" then some .WAND
  else if s = "MBWAND" then some .MBWAND
  else if s = "BWAND_OR" then some .BWAND_OR
  else if s = "BWAND_AND" then some .BWAND_AND
  else none

/-- Outcome of the algorithm-selection prologue of `main` (retrieval.c lines
67-85): on an unrecognised name the driver prints the option list and
executes a bare `return;` from `int main` — it carries no return value, so no
exit status is specified; otherwise execution proceeds to read the index and
evaluate queries. -/
inductive RetrievalOutcome where
  | invalidAlgorithm
  | runsQueries (a : Algorithm)
deriving DecidableEq

/-- The prologue of `main` as a function of the `-algorithm` value. -/
def retrievalDispatch (s : String) : RetrievalOutcome :=
  match algorithmOfString s with
  | none => .invalidAlgorithm
  | some a => .runsQueries a

/-- The value returned from `main` on each path: the success path ends in
`return 0` (retrieval.c line 475); the invalid-algorithm path executes
`return;` with no value (line 84), modelled as `none`. -/
def retrievalExitValue : RetrievalOutcome → Option Int
  | .invalidAlgorithm => none
  | .runsQueries _ => some 0

/-! Basic lemmas: pointer encoding, arena reads and writes, the codec
round trip, Bloom filter lengths. -/

theorem ENCODE_POINTER_eq (s o : Nat) (hs : s < 2 ^ 32) (ho : o < 2 ^ 32) :
    ENCODE_POINTER s o = s * 2 ^ 32 + o := by
  unfold ENCODE_POINTER
  omega

theorem DECODE_SEGMENT_ENCODE (s o : Nat) (hs : s < 2 ^ 32) (ho : o < 2 ^ 32) :
    DECODE_SEGMENT (ENCODE_POINTER s o) = s := by
  unfold DECODE_SEGMENT ENCODE_POINTER
  omega

theorem DECODE_OFFSET_ENCODE (s o : Nat) (_hs : s < 2 ^ 32) (ho : o < 2 ^ 32) :
    DECODE_OFFSET (ENCODE_POINTER s o) = o := by
  unfold DECODE_OFFSET ENCODE_POINTER
  omega

theorem toNat_ofNat_id (n : Nat) : (Int.ofNat n).toNat = n := rfl

theorem ptrSeg_ofNat_ENCODE (s o : Nat) (hs : s < 2 ^ 32) (ho : o < 2 ^ 32) :
    ptrSeg (Int.ofNat (ENCODE_POINTER s o)) = s := by
  unfold ptrSeg
  rw [toNat_ofNat_id]
  exact DECODE_SEGMENT_ENCODE s o hs ho

theorem ptrOff_ofNat_ENCODE (s o : Nat) (hs : s < 2 ^ 32) (ho : o < 2 ^ 32) :
    ptrOff (Int.ofNat (ENCODE_POINTER s o)) = o := by
  unfold ptrOff
  rw [toNat_ofNat_id]
  exact DECODE_OFFSET_ENCODE s o hs ho

theorem ofNat_ne_undefined (n : Nat) : Int.ofNat n ≠ UNDEFINED_POINTER := by
  unfold UNDEFINED_POINTER
  rw [Int.ofNat_eq_natCast]
  omega

theorem u32_ofNat (n : Nat) (h : n < 2 ^ 32) : u32 (Int.ofNat n) = n := by
  unfold u32
  rw [Int.ofNat_eq_natCast]
  omega

theorem wr_at (m : Arena) (s o : Nat) (v : Int) : wr m s o v s o = v := by
  simp [wr]

theorem wr_ne (m : Arena) (s o : Nat) (v : Int) (s' o' : Nat)
    (h : ¬(s' = s ∧ o' = o)) : wr m s o v s' o' = m s' o' := by
  simp [wr, h]

theorem wrList_untouched (vs : List Int) (m : Arena) (s o s' o' : Nat)
    (h : s' ≠ s ∨ o' < o ∨ o + vs.length ≤ o') :
    wrList m s o vs s' o' = m s' o' := by
  induction vs generalizing m o with
  | nil => rfl
  | cons v vs ih =>
    rw [wrList, ih (wr m s o v) (o + 1)]
    · apply wr_ne
      rintro ⟨rfl, rfl⟩
      simp only [List.length_cons] at h
      omega
    · simp only [List.length_cons] at h
      omega

theorem wrList_get (vs : List Int) (m : Arena) (s o i : Nat)
    (h : i < vs.length) : wrList m s o vs s (o + i) = vs.getD i 0 := by
  induction vs generalizing m o i with
  | nil => simp at h
  | cons v vs ih =>
    cases i with
    | zero =>
      rw [wrList]
      simp only [Nat.add_zero]
      rw [wrList_untouched vs _ s (o + 1) s o (by omega), wr_at]
      rfl
    | succ i =>
      rw [wrList]
      have : o + (i + 1) = (o + 1) + i := by omega
      rw [this, ih (wr m s o v) (o + 1) i (by simpa using h)]
      rfl

theorem rdList_congr (n : Nat) (m₁ m₂ : Arena) (s o : Nat)
    (h : ∀ i, i < n → m₁ s (o + i) = m₂ s (o + i)) :
    rdList m₁ s o n = rdList m₂ s o n := by
  induction n generalizing o with
  | zero => rfl
  | succ n ih =>
    rw [rdList, rdList]
    have h0 := h 0 (by omega)
    rw [Nat.add_zero] at h0
    rw [h0, ih (o + 1) (fun i hi => by
      have := h (i + 1) (by omega)
      rwa [show o + (i + 1) = o + 1 + i by omega] at this)]

theorem rdList_wrList (vs : List Int) (m : Arena) (s o k n : Nat)
    (h : k + n ≤ vs.length) :
    rdList (wrList m s o vs) s (o + k) n = (vs.drop k).take n := by
  induction n generalizing k with
  | zero => rfl
  | succ n ih =>
    rw [rdList]
    have h1 : wrList m s o vs s (o + k) = vs.getD k 0 := wrList_get vs m s o k (by omega)
    have h2 : o + k + 1 = o + (k + 1) := by omega
    have hk : k < vs.length := by omega
    rw [h1, h2, ih (k + 1) (by omega), List.drop_eq_getElem_cons hk, List.take_succ_cons]
    congr 1
    simp [List.getD_eq_getElem?_getD, List.getElem?_eq_getElem hk]

theorem gapsAux_length (p : Int) (l : List Nat) : (gapsAux p l).length = l.length := by
  induction l generalizing p with
  | nil => rfl
  | cons d t ih => simp [gapsAux, ih]

theorem OPT4_length (l : List Nat) (d : Bool) : (OPT4 l d).length = l.length := by
  cases d
  · show (l.map Int.ofNat).length = l.length
    exact List.length_map l _
  · show (gapsAux 0 l).length = l.length
    exact gapsAux_length 0 l

theorem undeltaAux_gapsAux (p : Int) (l : List Nat) :
    undeltaAux p (gapsAux p l) = l := by
  induction l generalizing p with
  | nil => rfl
  | cons d t ih => simp [gapsAux, undeltaAux, ih]

theorem detailed_p4_decode_OPT4 (l : List Nat) (r : Bool) :
    detailed_p4_decode (OPT4 l true) true r = if r then l.reverse else l := by
  simp [detailed_p4_decode, OPT4, undeltaAux_gapsAux]

theorem setBitW_length (f : List Nat) (b : Nat) : (setBitW f b).length = f.length := by
  simp [setBitW]

theorem insertIntoBloomFilter_length (f : List Nat) (fs nh d : Nat) :
    (insertIntoBloomFilter f fs nh d).length = f.length := by
  unfold insertIntoBloomFilter
  generalize List.range nh = l
  induction l generalizing f with
  | nil => rfl
  | cons i t ih => simp [List.foldl_cons, ih, setBitW_length]

theorem bloomFilterOf_length (data : List Nat) (fs nh : Nat) :
    (bloomFilterOf data fs nh).length = fs := by
  unfold bloomFilterOf
  have : ∀ (l : List Nat) (f : List Nat),
      (l.foldl (fun f d => insertIntoBloomFilter f fs nh d) f).length = f.length := by
    intro l
    induction l with
    | nil => intro f; rfl
    | cons d t ih => intro f; simp [List.foldl_cons, ih, insertIntoBloomFilter_length]
  rw [this, List.length_replicate]

/-! Region bookkeeping and preservation lemmas. -/

theorem cellLe_trans {a b c : Nat × Nat} (h1 : cellLe a b) (h2 : cellLe b c) :
    cellLe a c := by
  unfold cellLe at *
  omega

theorem cellLe_cursor_start (pool : SegmentPool) (r : Nat) :
    cellLe (pool.segment, pool.offset) (segAfter pool r, offAfter pool r) := by
  unfold cellLe segAfter offAfter
  by_cases h : r > MAX_INT_VALUE - pool.offset <;> simp [h]

theorem appendBlock_fst_segment (pool : SegmentPool) (r : Nat) (ws : List Int) (t : Int) :
    (appendBlock pool r ws t).1.segment = segAfter pool r := rfl

theorem appendBlock_fst_offset (pool : SegmentPool) (r : Nat) (ws : List Int) (t : Int) :
    (appendBlock pool r ws t).1.offset = offAfter pool r + r := rfl

theorem appendBlock_fst_reverse (pool : SegmentPool) (r : Nat) (ws : List Int) (t : Int) :
    (appendBlock pool r ws t).1.reverse = pool.reverse := rfl

theorem appendBlock_fst_bloomEnabled (pool : SegmentPool) (r : Nat) (ws : List Int) (t : Int) :
    (appendBlock pool r ws t).1.bloomEnabled = pool.bloomEnabled := rfl

theorem appendBlock_fst_nbHash (pool : SegmentPool) (r : Nat) (ws : List Int) (t : Int) :
    (appendBlock pool r ws t).1.nbHash = pool.nbHash := rfl

theorem appendBlock_fst_bitsPerElement (pool : SegmentPool) (r : Nat) (ws : List Int) (t : Int) :
    (appendBlock pool r ws t).1.bitsPerElement = pool.bitsPerElement := rfl

theorem appendBlock_snd (pool : SegmentPool) (r : Nat) (ws : List Int) (t : Int) :
    (appendBlock pool r ws t).2 =
      Int.ofNat (ENCODE_POINTER (segAfter pool r) (offAfter pool r)) := rfl

theorem appendBlock_mem_undef (pool : SegmentPool) (r : Nat) (ws : List Int) :
    (appendBlock pool r ws UNDEFINED_POINTER).1.mem =
      wrList pool.mem (segAfter pool r) (offAfter pool r) ws := by
  simp only [appendBlock, segAfter, offAfter, if_pos rfl]
  norm_num

theorem appendBlock_mem_fwd (pool : SegmentPool) (r : Nat) (ws : List Int) (t : Int)
    (ht : t ≠ UNDEFINED_POINTER) (hrev : pool.reverse = false) :
    (appendBlock pool r ws t).1.mem =
      wr (wr (wrList pool.mem (segAfter pool r) (offAfter pool r) ws)
            (ptrSeg t) (ptrOff t + 1) (Int.ofNat (segAfter pool r)))
        (ptrSeg t) (ptrOff t + 2) (Int.ofNat (offAfter pool r)) := by
  have h0 : (0 : Int) ≤ Int.ofNat (ptrSeg t) := by
    rw [Int.ofNat_eq_natCast]; omega
  simp only [appendBlock, segAfter, offAfter, if_neg ht, if_pos h0, hrev,
    Bool.false_eq_true, if_false, toNat_ofNat_id]

theorem appendBlock_mem_rev (pool : SegmentPool) (r : Nat) (ws : List Int) (t : Int)
    (ht : t ≠ UNDEFINED_POINTER) (hrev : pool.reverse = true) :
    (appendBlock pool r ws t).1.mem =
      wr (wr (wrList pool.mem (segAfter pool r) (offAfter pool r) ws)
            (segAfter pool r) (offAfter pool r + 1) (Int.ofNat (ptrSeg t)))
        (segAfter pool r) (offAfter pool r + 2) (Int.ofNat (ptrOff t)) := by
  have h0 : (0 : Int) ≤ Int.ofNat (ptrSeg t) := by
    rw [Int.ofNat_eq_natCast]; omega
  simp only [appendBlock, segAfter, offAfter, if_neg ht, if_pos h0, hrev, if_true]

theorem wrList_fresh_agree (pool : SegmentPool) (r : Nat) (vs : List Int)
    (b : BlockInfo) (hb : cellLe (endOf b) (pool.segment, pool.offset))
    (c : Nat) (hc : c < b.off + b.reqspace) :
    wrList pool.mem (segAfter pool r) (offAfter pool r) vs b.seg c = pool.mem b.seg c := by
  apply wrList_untouched
  unfold segAfter offAfter
  simp only [endOf] at hb
  simp only [cellLe] at hb
  by_cases h : r > MAX_INT_VALUE - pool.offset <;> simp only [h, if_pos, if_neg, if_true, if_false] <;> omega

theorem BlockFacts_of_agree (pool pool' : SegmentPool) (b : BlockInfo)
    (hrev : pool'.reverse = pool.reverse)
    (hbl : pool'.bloomEnabled = pool.bloomEnabled)
    (hnb : pool'.nbHash = pool.nbHash)
    (hbpe : pool'.bitsPerElement = pool.bitsPerElement)
    (hagree : ∀ c, b.off ≤ c → c < b.off + b.reqspace → c ≠ b.off + 1 → c ≠ b.off + 2 →
      pool'.mem b.seg c = pool.mem b.seg c)
    (h : BlockFacts pool b) : BlockFacts pool' b := by
  obtain ⟨w0, w3, w4, w5, w6, wdoc, wbloom, hwords, hcsize, hlen, hmax, hmax32, hfilter,
    hfsize, h8, hcs7, hbb7, hbbfs, hoff32, hseg31⟩ := h
  refine ⟨?_, ?_, ?_, ?_, ?_, ?_, ?_, ?_, hcsize, hlen, ?_, hmax32, ?_, ?_, h8, hcs7, hbb7,
    hbbfs, hoff32, hseg31⟩
  · rw [hagree b.off (by omega) (by omega) (by omega) (by omega)]; exact w0
  · rw [hagree (b.off + 3) (by omega) (by omega) (by omega) (by omega)]; exact w3
  · rw [hagree (b.off + 4) (by omega) (by omega) (by omega) (by omega)]; exact w4
  · rw [hagree (b.off + 5) (by omega) (by omega) (by omega) (by omega)]; exact w5
  · rw [hagree (b.off + 6) (by omega) (by omega) (by omega) (by omega)]; exact w6
  · rw [rdList_congr b.csize pool'.mem pool.mem b.seg (b.off + 7)
      (fun i hi => hagree (b.off + 7 + i) (by omega) (by omega) (by omega) (by omega))]
    exact wdoc
  · intro hb
    rw [hbl] at hb
    obtain ⟨hb1, hb2⟩ := wbloom hb
    constructor
    · rw [hagree (b.off + b.bloomBase) (by omega) (by omega) (by omega) (by omega)]; exact hb1
    · rw [rdList_congr b.filterSize pool'.mem pool.mem b.seg (b.off + b.bloomBase + 1)
        (fun i hi => hagree (b.off + b.bloomBase + 1 + i) (by omega) (by omega) (by omega)
          (by omega))]
      exact hb2
  · rw [hrev]; exact hwords
  · rw [hrev]; exact hmax
  · rw [hnb]; exact hfilter
  · rw [hbl, hbpe]; exact hfsize

theorem ChainedLinks_of_agree (m m' : Arena) (bs : List BlockInfo)
    (h : ∀ a ∈ bs.dropLast,
      m' a.seg (a.off + 1) = m a.seg (a.off + 1) ∧ m' a.seg (a.off + 2) = m a.seg (a.off + 2))
    (hc : ChainedLinks m bs) : ChainedLinks m' bs := by
  induction bs with
  | nil => trivial
  | cons a t ih =>
    cases t with
    | nil => trivial
    | cons b t' =>
      obtain ⟨hab, hrest⟩ := hc
      have ha := h a (by simp [List.dropLast_cons₂])
      refine ⟨⟨?_, ?_⟩, ?_⟩
      · rw [ha.1]; exact hab.1
      · rw [ha.2]; exact hab.2
      · exact ih (fun x hx => h x (by simp [List.dropLast_cons₂]; right; exact hx)) hrest

theorem ChainedLinks_snoc (m : Arena) (bs : List BlockInfo) (b' : BlockInfo)
    (h : ∀ L, bs.getLast? = some L → linkRel m L b')
    (hc : ChainedLinks m bs) : ChainedLinks m (bs ++ [b']) := by
  induction bs with
  | nil => trivial
  | cons a t ih =>
    cases t with
    | nil => exact ⟨h a rfl, trivial⟩
    | cons b t' =>
      obtain ⟨hab, hrest⟩ := hc
      exact ⟨hab, ih (fun L hL => h L (by rw [List.getLast?_cons_cons]; exact hL)) hrest⟩

theorem offAfter_fits (pool : SegmentPool) (r : Nat) (hoff : pool.offset ≤ MAX_INT_VALUE)
    (hr : r ≤ MAX_INT_VALUE) : offAfter pool r + r ≤ MAX_INT_VALUE := by
  unfold offAfter
  split <;> omega

theorem segAfter_le (pool : SegmentPool) (r : Nat) : segAfter pool r ≤ pool.segment + 1 := by
  unfold segAfter
  split <;> omega

theorem cellLe_offset_add (s o k : Nat) : cellLe (s, o) (s, o + k) := by
  unfold cellLe
  omega

theorem drop_hdr7_exact (a₁ a₂ a₃ a₄ a₅ a₆ a₇ : Int) (rest : List Int) (j : Nat) :
    ([a₁, a₂, a₃, a₄, a₅, a₆, a₇] ++ rest).drop (j + 7) = rest.drop j := rfl

theorem drop_hdr7 (a₁ a₂ a₃ a₄ a₅ a₆ a₇ : Int) (rest : List Int) (k : Nat) (hk : 7 ≤ k) :
    ([a₁, a₂, a₃, a₄, a₅, a₆, a₇] ++ rest).drop k = rest.drop (k - 7) := by
  obtain ⟨j, rfl⟩ : ∃ j, k = j + 7 := ⟨k - 7, by omega⟩
  simp only [Nat.add_sub_cancel]
  exact drop_hdr7_exact a₁ a₂ a₃ a₄ a₅ a₆ a₇ rest j

theorem BlockFacts_new (pool' pool : SegmentPool)
    (reqspace maxDoc len csize bloomBase filterSize : Nat)
    (rest words : List Int) (run filter : List Nat) (s2 o2 : Nat)
    (hrev : pool'.reverse = pool.reverse) (hbl : pool'.bloomEnabled = pool.bloomEnabled)
    (hnb : pool'.nbHash = pool.nbHash) (hbpe : pool'.bitsPerElement = pool.bitsPerElement)
    (hB : ∀ c, o2 ≤ c → c < o2 + reqspace → c ≠ o2 + 1 → c ≠ o2 + 2 →
      pool'.mem s2 c = wrList pool.mem s2 o2
        ([Int.ofNat reqspace, UNKNOWN_SEGMENT, 0, Int.ofNat maxDoc, Int.ofNat bloomBase,
          Int.ofNat len, Int.ofNat csize] ++ rest) s2 c)
    (hrestcs : csize ≤ rest.length)
    (hdocw : rest.take csize = words)
    (hwslen : 7 + rest.length ≤ reqspace)
    (hbloomws : pool.bloomEnabled = true →
      rest.drop (bloomBase - 7) = Int.ofNat filterSize :: filter.map Int.ofNat)
    (hbb7 : 7 ≤ bloomBase)
    (hbbfs : bloomBase + filterSize + 1 ≤ reqspace)
    (hcs7 : csize + 7 ≤ reqspace)
    (h8 : 8 ≤ reqspace)
    (hwords : words = OPT4 (if pool.reverse then run.reverse else run) true)
    (hcsize : csize = words.length)
    (hlen : len = run.length)
    (hmax : maxDoc = (if pool.reverse then run.head?.getD 0 else run.getLast?.getD 0))
    (hmax32 : maxDoc < 2 ^ 32)
    (hfilter : filter = bloomFilterOf run filterSize pool.nbHash)
    (hfsize : filterSize =
      (if pool.bloomEnabled then computeBloomFilterLength run.length pool.bitsPerElement else 0))
    (ho32 : o2 + reqspace ≤ 2 ^ 32)
    (hs31 : s2 < 2 ^ 31) :
    BlockFacts pool'
      ⟨s2, o2, reqspace, maxDoc, len, csize, bloomBase, filterSize, words, run, filter⟩ := by
  have hwlen : ([Int.ofNat reqspace, UNKNOWN_SEGMENT, 0, Int.ofNat maxDoc, Int.ofNat bloomBase,
      Int.ofNat len, Int.ofNat csize] ++ rest).length = 7 + rest.length := by
    simp
    omega
  have hget : ∀ i, i < 7 + rest.length → i ≠ 1 → i ≠ 2 →
      pool'.mem s2 (o2 + i) =
        ([Int.ofNat reqspace, UNKNOWN_SEGMENT, 0, Int.ofNat maxDoc, Int.ofNat bloomBase,
          Int.ofNat len, Int.ofNat csize] ++ rest).getD i 0 := by
    intro i hi h1 h2
    rw [hB (o2 + i) (by omega) (by omega) (by omega) (by omega),
      wrList_get _ _ _ _ i (by omega)]
  refine ⟨?_, ?_, ?_, ?_, ?_, ?_, ?_, by rw [hrev]; exact hwords, hcsize, hlen,
    by rw [hrev]; exact hmax, hmax32, by rw [hnb]; exact hfilter, ?_,
    h8, hcs7, hbb7, hbbfs, ho32, hs31⟩
  · have h := hget 0 (by omega) (by omega) (by omega)
    rw [Nat.add_zero] at h
    exact h
  · exact hget 3 (by omega) (by omega) (by omega)
  · exact hget 4 (by omega) (by omega) (by omega)
  · exact hget 5 (by omega) (by omega) (by omega)
  · exact hget 6 (by omega) (by omega) (by omega)
  · show rdList pool'.mem s2 (o2 + 7) csize = words
    rw [rdList_congr csize pool'.mem
        (wrList pool.mem s2 o2
          ([Int.ofNat reqspace, UNKNOWN_SEGMENT, 0, Int.ofNat maxDoc, Int.ofNat bloomBase,
            Int.ofNat len, Int.ofNat csize] ++ rest)) s2 (o2 + 7)
        (fun i hi => hB (o2 + 7 + i) (by omega) (by omega) (by omega) (by omega)),
      rdList_wrList _ _ _ _ 7 csize (by omega)]
    exact hdocw
  · intro hb
    rw [hbl] at hb
    have hfl : filter.length = filterSize := by
      rw [hfilter]; exact bloomFilterOf_length run filterSize pool.nbHash
    have hlendrop : rest.length - (bloomBase - 7) = filterSize + 1 := by
      have := congrArg List.length (hbloomws hb)
      simp [hfl] at this
      omega
    have hlenws : bloomBase + (filterSize + 1) ≤ 7 + rest.length := by omega
    have hread : rdList pool'.mem s2 (o2 + bloomBase) (filterSize + 1) =
        Int.ofNat filterSize :: filter.map Int.ofNat := by
      rw [rdList_congr (filterSize + 1) pool'.mem
          (wrList pool.mem s2 o2
            ([Int.ofNat reqspace, UNKNOWN_SEGMENT, 0, Int.ofNat maxDoc, Int.ofNat bloomBase,
              Int.ofNat len, Int.ofNat csize] ++ rest)) s2 (o2 + bloomBase)
          (fun i hi => hB (o2 + bloomBase + i) (by omega) (by omega) (by omega) (by omega)),
        rdList_wrList _ _ _ _ bloomBase (filterSize + 1) (by omega)]
      rw [drop_hdr7 _ _ _ _ _ _ _ rest bloomBase hbb7, hbloomws hb]
      rw [List.take_succ_cons]
      congr 1
      rw [List.take_of_length_le]
      simp [hfl]
    rw [rdList] at hread
    injection hread with hread1 hread2
    exact ⟨hread1, hread2⟩
  · rw [hbl, hbpe]; exact hfsize

theorem mem_of_getLast?Eq {α : Type} : ∀ {l : List α} {a : α}, l.getLast? = some a → a ∈ l := by
  intro l
  induction l with
  | nil => intro a h; cases h
  | cons x t ih =>
    intro a h
    cases t with
    | nil =>
      cases h
      exact List.mem_singleton_self x
    | cons y t' =>
      rw [List.getLast?_cons_cons] at h
      exact List.mem_cons_of_mem x (ih h)

theorem dropLast_append_getLast?Eq {α : Type} :
    ∀ {l : List α} {a : α}, l.getLast? = some a → l.dropLast ++ [a] = l := by
  intro l
  induction l with
  | nil => intro a h; cases h
  | cons x t ih =>
    intro a h
    cases t with
    | nil => cases h; rfl
    | cons y t' =>
      rw [List.getLast?_cons_cons] at h
      rw [List.dropLast_cons₂, List.cons_append, ih h]

theorem mem_dropLast_mem {α : Type} : ∀ {l : List α} {a : α}, a ∈ l.dropLast → a ∈ l := by
  intro l
  induction l with
  | nil => intro a h; cases h
  | cons x t ih =>
    intro a h
    cases t with
    | nil => cases h
    | cons y t' =>
      rw [List.dropLast_cons₂] at h
      rcases List.mem_cons.mp h with h | h
      · exact h ▸ List.mem_cons_self x _
      · exact List.mem_cons_of_mem x (ih h)

theorem appendBlock_step
    (pool : SegmentPool) (infos : List BlockInfo) (tailP headP : Int)
    (inv : PoolInv pool infos tailP headP)
    (reqspace maxDoc len csize bloomBase filterSize : Nat)
    (rest words : List Int) (run filter : List Nat)
    (hrestcs : csize ≤ rest.length)
    (hdocw : rest.take csize = words)
    (hwslen : 7 + rest.length ≤ reqspace)
    (hbloomws : pool.bloomEnabled = true →
      rest.drop (bloomBase - 7) = Int.ofNat filterSize :: filter.map Int.ofNat)
    (hbb7 : 7 ≤ bloomBase)
    (hbbfs : bloomBase + filterSize + 1 ≤ reqspace)
    (hcs7 : csize + 7 ≤ reqspace)
    (h8 : 8 ≤ reqspace)
    (hreq : reqspace ≤ MAX_INT_VALUE)
    (hseg : pool.segment + 1 < 2 ^ 31)
    (hwords : words = OPT4 (if pool.reverse then run.reverse else run) true)
    (hcsize : csize = words.length)
    (hlen : len = run.length)
    (hmax : maxDoc = (if pool.reverse then run.head?.getD 0 else run.getLast?.getD 0))
    (hmax32 : maxDoc < 2 ^ 32)
    (hfilter : filter = bloomFilterOf run filterSize pool.nbHash)
    (hfsize : filterSize =
      (if pool.bloomEnabled then computeBloomFilterLength run.length pool.bitsPerElement else 0))
    (ws : List Int)
    (hws : ws = [Int.ofNat reqspace, UNKNOWN_SEGMENT, 0, Int.ofNat maxDoc, Int.ofNat bloomBase,
      Int.ofNat len, Int.ofNat csize] ++ rest) :
    ∃ b' : BlockInfo,
      (appendBlock pool reqspace ws tailP).2 = ptrOfB b' ∧ b'.run = run ∧
      b'.seg = segAfter pool reqspace ∧ b'.off = offAfter pool reqspace ∧
      b'.reqspace = reqspace ∧
      PoolInv (appendBlock pool reqspace ws tailP).1 (infos ++ [b'])
        (appendBlock pool reqspace ws tailP).2
        (if pool.reverse = true ∨ headP = UNDEFINED_POINTER
          then (appendBlock pool reqspace ws tailP).2 else headP) := by
  have hofffit : offAfter pool reqspace + reqspace ≤ MAX_INT_VALUE :=
    offAfter_fits pool reqspace inv.offle hreq
  have hmaxlt : MAX_INT_VALUE < 2 ^ 32 := by unfold MAX_INT_VALUE; omega
  have ho32 : offAfter pool reqspace + reqspace ≤ 2 ^ 32 := by omega
  have hs2le : segAfter pool reqspace ≤ pool.segment + 1 := segAfter_le pool reqspace
  have hs31 : segAfter pool reqspace < 2 ^ 31 := by omega
  have ho2lt : offAfter pool reqspace < 2 ^ 32 := by omega
  have hs2lt : segAfter pool reqspace < 2 ^ 32 := by omega
  have hcursor : cellLe (pool.segment, pool.offset) (segAfter pool reqspace, offAfter pool reqspace) :=
    cellLe_cursor_start pool reqspace
  have hwsl : ws.length = 7 + rest.length := by rw [hws]; simp; omega
  refine ⟨⟨segAfter pool reqspace, offAfter pool reqspace, reqspace, maxDoc, len, csize,
    bloomBase, filterSize, words, run, filter⟩, ?_, rfl, rfl, rfl, rfl, ?_⟩
  · rw [appendBlock_snd]
    rfl
  -- notation
  have hsnd : (appendBlock pool reqspace ws tailP).2 =
      Int.ofNat (ENCODE_POINTER (segAfter pool reqspace) (offAfter pool reqspace)) :=
    appendBlock_snd pool reqspace ws tailP
  have hfits' : ∀ b ∈ infos ++
      [(⟨segAfter pool reqspace, offAfter pool reqspace, reqspace, maxDoc, len, csize,
        bloomBase, filterSize, words, run, filter⟩ : BlockInfo)],
      cellLe (endOf b) ((appendBlock pool reqspace ws tailP).1.segment,
        (appendBlock pool reqspace ws tailP).1.offset) := by
    intro b hb
    rw [appendBlock_fst_segment, appendBlock_fst_offset]
    rcases List.mem_append.mp hb with hb | hb
    · exact cellLe_trans (cellLe_trans (inv.fits b hb) hcursor)
        (cellLe_offset_add _ _ reqspace)
    · rw [List.mem_singleton.mp hb]
      show cellLe (segAfter pool reqspace, offAfter pool reqspace + reqspace)
        (segAfter pool reqspace, offAfter pool reqspace + reqspace)
      unfold cellLe
      omega
  have hdisj' : (infos ++
      [(⟨segAfter pool reqspace, offAfter pool reqspace, reqspace, maxDoc, len, csize,
        bloomBase, filterSize, words, run, filter⟩ : BlockInfo)]).Pairwise
      (fun a b => cellLe (endOf a) (startOf b)) := by
    rw [List.pairwise_append]
    refine ⟨inv.disj, List.pairwise_singleton _ _, ?_⟩
    intro a ha b hb
    rw [List.mem_singleton.mp hb]
    exact cellLe_trans (inv.fits a ha) hcursor
  have hoffle' : (appendBlock pool reqspace ws tailP).1.offset ≤ MAX_INT_VALUE := by
    rw [appendBlock_fst_offset]
    exact hofffit
  have hseg31' : (appendBlock pool reqspace ws tailP).1.segment < 2 ^ 31 := by
    rw [appendBlock_fst_segment]
    exact hs31
  have htail' : (appendBlock pool reqspace ws tailP).2 =
      (((infos ++
        [(⟨segAfter pool reqspace, offAfter pool reqspace, reqspace, maxDoc, len, csize,
          bloomBase, filterSize, words, run, filter⟩ : BlockInfo)]).getLast?).map ptrOfB).getD
        UNDEFINED_POINTER := by
    rw [List.getLast?_concat, hsnd]
    rfl
  by_cases htailc : tailP = UNDEFINED_POINTER
  -- first call of a chain: no patch
  · have hinfos : infos = [] := by
      cases hL : infos.getLast? with
      | none =>
        cases infos with
        | nil => rfl
        | cons x t => rw [List.getLast?_eq_none_iff] at hL; cases hL
      | some L =>
        exfalso
        have := inv.htail
        rw [hL] at this
        rw [htailc] at this
        exact ofNat_ne_undefined _ this.symm
    subst hinfos
    have hmem : (appendBlock pool reqspace ws tailP).1.mem =
        wrList pool.mem (segAfter pool reqspace) (offAfter pool reqspace) ws := by
      rw [htailc]
      exact appendBlock_mem_undef pool reqspace ws
    have hB : ∀ c, offAfter pool reqspace ≤ c → c < offAfter pool reqspace + reqspace →
        c ≠ offAfter pool reqspace + 1 → c ≠ offAfter pool reqspace + 2 →
        (appendBlock pool reqspace ws tailP).1.mem (segAfter pool reqspace) c =
          wrList pool.mem (segAfter pool reqspace) (offAfter pool reqspace)
            ([Int.ofNat reqspace, UNKNOWN_SEGMENT, 0, Int.ofNat maxDoc, Int.ofNat bloomBase,
              Int.ofNat len, Int.ofNat csize] ++ rest) (segAfter pool reqspace) c := by
      intro c _ _ _ _
      rw [hmem, hws]
    have hterm : (appendBlock pool reqspace ws tailP).1.mem (segAfter pool reqspace)
        (offAfter pool reqspace + 1) = UNKNOWN_SEGMENT := by
      rw [hmem, wrList_get ws pool.mem _ _ 1 (by omega), hws]
      rfl
    refine ⟨?_, ?_, hfits', hdisj', hoffle', hseg31', htail', ?_⟩
    · intro b hb
      simp only [List.nil_append, List.mem_singleton] at hb
      rw [hb]
      exact BlockFacts_new (appendBlock pool reqspace ws tailP).1 pool reqspace maxDoc len csize
        bloomBase filterSize rest words run filter (segAfter pool reqspace)
        (offAfter pool reqspace) rfl rfl rfl rfl hB hrestcs hdocw hwslen hbloomws hbb7 hbbfs
        hcs7 h8 hwords hcsize hlen hmax hmax32 hfilter hfsize ho32 hs31
    · rw [appendBlock_fst_reverse]
      have hsingle : Chained (appendBlock pool reqspace ws tailP).1.mem
          [(⟨segAfter pool reqspace, offAfter pool reqspace, reqspace, maxDoc, len, csize,
            bloomBase, filterSize, words, run, filter⟩ : BlockInfo)] := by
        refine ⟨trivial, ?_⟩
        intro b hb
        have hone : ([(⟨segAfter pool reqspace, offAfter pool reqspace, reqspace, maxDoc, len,
            csize, bloomBase, filterSize, words, run, filter⟩ : BlockInfo)]).getLast? =
            some ⟨segAfter pool reqspace, offAfter pool reqspace, reqspace, maxDoc, len, csize,
              bloomBase, filterSize, words, run, filter⟩ := rfl
        rw [hone] at hb
        injection hb with hbe
        rw [← hbe]
        exact hterm
      cases hr : pool.reverse
      · simpa using hsingle
      · simpa using hsingle
    · -- head pointer: previous head was undefined
      have hh : headP = UNDEFINED_POINTER := by
        have := inv.hhead
        cases hr : pool.reverse <;> rw [hr] at this <;> simpa using this
      rw [if_pos (Or.inr hh), appendBlock_fst_reverse]
      cases hr : pool.reverse <;>
        simp [List.nil_append, List.getLast?_singleton, hsnd, ptrOfB]
  -- a previous block exists: the new block is linked to it
  · cases hL : infos.getLast? with
    | none =>
      exfalso
      have := inv.htail
      rw [hL] at this
      exact htailc this
    | some L =>
      have htailP : tailP = ptrOfB L := by
        have := inv.htail
        rw [hL] at this
        exact this
      have hLmem : L ∈ infos := mem_of_getLast?Eq hL
      have hLfacts := inv.facts L hLmem
      have hLseg32 : L.seg < 2 ^ 32 := by have := hLfacts.hseg31; omega
      have hLoff32 : L.off < 2 ^ 32 := by have := hLfacts.hoff32; have := hLfacts.h8; omega
      have hLseg : ptrSeg tailP = L.seg := by
        rw [htailP]
        exact ptrSeg_ofNat_ENCODE L.seg L.off hLseg32 hLoff32
      have hLoff : ptrOff tailP = L.off := by
        rw [htailP]
        exact ptrOff_ofNat_ENCODE L.seg L.off hLseg32 hLoff32
      have hLend : cellLe (endOf L) (segAfter pool reqspace, offAfter pool reqspace) :=
        cellLe_trans (inv.fits L hLmem) hcursor
      have hinfosne : infos ≠ [] := by
        intro h
        rw [h] at hL
        cases hL
      have hdecomp : infos.dropLast ++ [L] = infos := dropLast_append_getLast?Eq hL
      have hrelL : ∀ b ∈ infos.dropLast, cellLe (endOf b) (startOf L) := by
        intro b hb
        have hd := inv.disj
        rw [← hdecomp] at hd
        rcases List.pairwise_append.mp hd with ⟨_, _, hrel⟩
        exact hrel b hb L (List.mem_singleton_self L)
      -- the two patch flavours
      by_cases hrev : pool.reverse = true
      · -- reverse mode: the new block points back to the previous one
        have hmem : (appendBlock pool reqspace ws tailP).1.mem =
            wr (wr (wrList pool.mem (segAfter pool reqspace) (offAfter pool reqspace) ws)
                  (segAfter pool reqspace) (offAfter pool reqspace + 1) (Int.ofNat L.seg))
              (segAfter pool reqspace) (offAfter pool reqspace + 2) (Int.ofNat L.off) := by
          have h := appendBlock_mem_rev pool reqspace ws tailP htailc hrev
          rw [hLseg, hLoff] at h
          exact h
        have hB : ∀ c, offAfter pool reqspace ≤ c → c < offAfter pool reqspace + reqspace →
            c ≠ offAfter pool reqspace + 1 → c ≠ offAfter pool reqspace + 2 →
            (appendBlock pool reqspace ws tailP).1.mem (segAfter pool reqspace) c =
              wrList pool.mem (segAfter pool reqspace) (offAfter pool reqspace)
                ([Int.ofNat reqspace, UNKNOWN_SEGMENT, 0, Int.ofNat maxDoc, Int.ofNat bloomBase,
                  Int.ofNat len, Int.ofNat csize] ++ rest) (segAfter pool reqspace) c := by
          intro c _ _ hc1 hc2
          rw [hmem, wr_ne _ _ _ _ _ _ (by intro h; exact hc2 h.2),
            wr_ne _ _ _ _ _ _ (by intro h; exact hc1 h.2), hws]
        have hAall : ∀ b ∈ infos, ∀ c, c < b.off + b.reqspace →
            (appendBlock pool reqspace ws tailP).1.mem b.seg c = pool.mem b.seg c := by
          intro b hb c hc
          have hbfit := inv.fits b hb
          have hcur := hcursor
          simp only [endOf] at hbfit
          simp only [cellLe] at hbfit hcur
          rw [hmem]
          rw [wr_ne _ _ _ _ _ _ (by rintro ⟨h1, h2⟩; omega),
            wr_ne _ _ _ _ _ _ (by rintro ⟨h1, h2⟩; omega)]
          exact wrList_fresh_agree pool reqspace ws b (inv.fits b hb) c hc
        have hlinknew : linkRel (appendBlock pool reqspace ws tailP).1.mem
            ⟨segAfter pool reqspace, offAfter pool reqspace, reqspace, maxDoc, len, csize,
              bloomBase, filterSize, words, run, filter⟩ L := by
          constructor
          · show (appendBlock pool reqspace ws tailP).1.mem (segAfter pool reqspace)
              (offAfter pool reqspace + 1) = Int.ofNat L.seg
            rw [hmem, wr_ne _ _ _ _ _ _ (by rintro ⟨h1, h2⟩; omega), wr_at]
          · show (appendBlock pool reqspace ws tailP).1.mem (segAfter pool reqspace)
              (offAfter pool reqspace + 2) = Int.ofNat L.off
            rw [hmem, wr_at]
        refine ⟨?_, ?_, hfits', hdisj', hoffle', hseg31', htail', ?_⟩
        · intro b hb
          rcases List.mem_append.mp hb with hb | hb
          · exact BlockFacts_of_agree pool (appendBlock pool reqspace ws tailP).1 b rfl rfl rfl
              rfl (fun c hc1 hc2 _ _ => hAall b hb c hc2) (inv.facts b hb)
          · rw [List.mem_singleton.mp hb]
            exact BlockFacts_new (appendBlock pool reqspace ws tailP).1 pool reqspace maxDoc len
              csize bloomBase filterSize rest words run filter (segAfter pool reqspace)
              (offAfter pool reqspace) rfl rfl rfl rfl hB hrestcs hdocw hwslen hbloomws hbb7
              hbbfs hcs7 h8 hwords hcsize hlen hmax hmax32 hfilter hfsize ho32 hs31
        · rw [appendBlock_fst_reverse, hrev, if_pos rfl, List.reverse_append,
            List.reverse_singleton, List.singleton_append]
          have holdlinks : Chained pool.mem infos.reverse := by
            have := inv.links
            rw [hrev, if_pos rfl] at this
            exact this
          cases hrevl : infos.reverse with
          | nil =>
            exfalso
            rw [List.reverse_eq_nil_iff] at hrevl
            exact hinfosne hrevl
          | cons x rest' =>
            have hx : x = L := by
              have h1 : infos.reverse.head? = some L := by
                rw [List.head?_reverse, hL]
              rw [hrevl] at h1
              cases h1
              rfl
            constructor
            · -- links
              show ChainedLinks (appendBlock pool reqspace ws tailP).1.mem _
              have hrest : ChainedLinks (appendBlock pool reqspace ws tailP).1.mem (x :: rest') := by
                rw [← hrevl]
                refine ChainedLinks_of_agree pool.mem _ infos.reverse ?_ holdlinks.1
                intro a ha
                have hamem : a ∈ infos := by
                  rw [← List.mem_reverse]
                  exact mem_dropLast_mem ha
                have hafacts := inv.facts a hamem
                exact ⟨hAall a hamem (a.off + 1) (by have := hafacts.h8; omega),
                  hAall a hamem (a.off + 2) (by have := hafacts.h8; omega)⟩
              exact ⟨by rw [hx]; exact hlinknew, hrest⟩
            · -- terminal: the chronologically first block keeps its marker
              intro b hb
              rw [List.getLast?_cons_cons] at hb
              have hbmem : b ∈ infos := by
                rw [← List.mem_reverse, hrevl]
                exact mem_of_getLast?Eq hb
              have hbold : pool.mem b.seg (b.off + 1) = UNKNOWN_SEGMENT := by
                apply holdlinks.2
                rw [hrevl]
                exact hb
              have hbfacts := inv.facts b hbmem
              rw [hAall b hbmem (b.off + 1) (by have := hbfacts.h8; omega)]
              exact hbold
        · -- head pointer in reverse mode: always the new block
          rw [if_pos (Or.inl hrev), appendBlock_fst_reverse, hrev, if_pos rfl,
            List.getLast?_concat, hsnd]
          rfl
      · -- forward mode: the previous block is patched to point at the new one
        have hrevf : pool.reverse = false := by
          cases h : pool.reverse
          · rfl
          · exact absurd h hrev
        have hmem : (appendBlock pool reqspace ws tailP).1.mem =
            wr (wr (wrList pool.mem (segAfter pool reqspace) (offAfter pool reqspace) ws)
                  L.seg (L.off + 1) (Int.ofNat (segAfter pool reqspace)))
              L.seg (L.off + 2) (Int.ofNat (offAfter pool reqspace)) := by
          have h := appendBlock_mem_fwd pool reqspace ws tailP htailc hrevf
          rw [hLseg, hLoff] at h
          exact h
        have hLreq := hLfacts.h8
        have hpatchne : ∀ c, offAfter pool reqspace ≤ c →
            ¬(segAfter pool reqspace = L.seg ∧ c = L.off + 1) ∧
            ¬(segAfter pool reqspace = L.seg ∧ c = L.off + 2) := by
          intro c hc
          have hLe := hLend
          simp only [endOf] at hLe
          simp only [cellLe] at hLe
          have hq := hLfacts.h8
          constructor <;> rintro ⟨h1, h2⟩ <;> omega
        have hB : ∀ c, offAfter pool reqspace ≤ c → c < offAfter pool reqspace + reqspace →
            c ≠ offAfter pool reqspace + 1 → c ≠ offAfter pool reqspace + 2 →
            (appendBlock pool reqspace ws tailP).1.mem (segAfter pool reqspace) c =
              wrList pool.mem (segAfter pool reqspace) (offAfter pool reqspace)
                ([Int.ofNat reqspace, UNKNOWN_SEGMENT, 0, Int.ofNat maxDoc, Int.ofNat bloomBase,
                  Int.ofNat len, Int.ofNat csize] ++ rest) (segAfter pool reqspace) c := by
          intro c hc1 _ _ _
          rw [hmem, wr_ne _ _ _ _ _ _ (hpatchne c hc1).2, wr_ne _ _ _ _ _ _ (hpatchne c hc1).1,
            hws]
        have hA : ∀ b ∈ infos, ∀ c, b.off ≤ c → c < b.off + b.reqspace →
            c ≠ b.off + 1 → c ≠ b.off + 2 →
            (appendBlock pool reqspace ws tailP).1.mem b.seg c = pool.mem b.seg c := by
          intro b hb c hc0 hc hne1 hne2
          have hbcases : b ∈ infos.dropLast ∨ b = L := by
            rw [← hdecomp] at hb
            rcases List.mem_append.mp hb with h | h
            · exact Or.inl h
            · exact Or.inr (List.mem_singleton.mp h)
          rcases hbcases with hbd | hbL
          · have hrel := hrelL b hbd
            simp only [endOf, startOf] at hrel
            simp only [cellLe] at hrel
            rw [hmem]
            rw [wr_ne _ _ _ _ _ _ (by rintro ⟨h1, h2⟩; omega),
              wr_ne _ _ _ _ _ _ (by rintro ⟨h1, h2⟩; omega)]
            exact wrList_fresh_agree pool reqspace ws b (inv.fits b hb) c hc
          · subst hbL
            rw [hmem]
            rw [wr_ne _ _ _ _ _ _ (by rintro ⟨h1, h2⟩; omega),
              wr_ne _ _ _ _ _ _ (by rintro ⟨h1, h2⟩; omega)]
            exact wrList_fresh_agree pool reqspace ws b (inv.fits b hb) c hc
        have hC : ∀ a ∈ infos.dropLast,
            (appendBlock pool reqspace ws tailP).1.mem a.seg (a.off + 1) =
              pool.mem a.seg (a.off + 1) ∧
            (appendBlock pool reqspace ws tailP).1.mem a.seg (a.off + 2) =
              pool.mem a.seg (a.off + 2) := by
          intro a ha
          have hamem : a ∈ infos := mem_dropLast_mem ha
          have hafacts := inv.facts a hamem
          have hrel := hrelL a ha
          simp only [endOf, startOf] at hrel
          simp only [cellLe] at hrel
          have ha8 := hafacts.h8
          constructor <;>
            (rw [hmem, wr_ne _ _ _ _ _ _ (by rintro ⟨h1, h2⟩; omega),
              wr_ne _ _ _ _ _ _ (by rintro ⟨h1, h2⟩; omega)]
             exact wrList_fresh_agree pool reqspace ws a (inv.fits a hamem) _
               (by have := hafacts.h8; omega))
        have hlinkL : linkRel (appendBlock pool reqspace ws tailP).1.mem L
            ⟨segAfter pool reqspace, offAfter pool reqspace, reqspace, maxDoc, len, csize,
              bloomBase, filterSize, words, run, filter⟩ := by
          constructor
          · rw [hmem, wr_ne _ _ _ _ _ _ (by rintro ⟨h1, h2⟩; omega), wr_at]
          · rw [hmem, wr_at]
        have hterm : (appendBlock pool reqspace ws tailP).1.mem (segAfter pool reqspace)
            (offAfter pool reqspace + 1) = UNKNOWN_SEGMENT := by
          have hLe := hLend
          simp only [endOf] at hLe
          simp only [cellLe] at hLe
          have hq := hLfacts.h8
          rw [hmem, wr_ne _ _ _ _ _ _ (by rintro ⟨h1, h2⟩; omega),
            wr_ne _ _ _ _ _ _ (by rintro ⟨h1, h2⟩; omega),
            wrList_get ws pool.mem _ _ 1 (by omega), hws]
          rfl
        refine ⟨?_, ?_, hfits', hdisj', hoffle', hseg31', htail', ?_⟩
        · intro b hb
          rcases List.mem_append.mp hb with hb | hb
          · exact BlockFacts_of_agree pool (appendBlock pool reqspace ws tailP).1 b rfl rfl rfl
              rfl (hA b hb) (inv.facts b hb)
          · rw [List.mem_singleton.mp hb]
            exact BlockFacts_new (appendBlock pool reqspace ws tailP).1 pool reqspace maxDoc len
              csize bloomBase filterSize rest words run filter (segAfter pool reqspace)
              (offAfter pool reqspace) rfl rfl rfl rfl hB hrestcs hdocw hwslen hbloomws hbb7
              hbbfs hcs7 h8 hwords hcsize hlen hmax hmax32 hfilter hfsize ho32 hs31
        · rw [appendBlock_fst_reverse, hrevf]
          simp only [Bool.false_eq_true, if_false]
          have holdlinks : Chained pool.mem infos := by
            have := inv.links
            rw [hrevf] at this
            simpa using this
          constructor
          · apply ChainedLinks_snoc
            · intro L' hL'
              rw [hL] at hL'
              cases hL'
              exact hlinkL
            · exact ChainedLinks_of_agree pool.mem _ infos hC holdlinks.1
          · intro b hb
            rw [List.getLast?_concat] at hb
            cases hb
            exact hterm
        · -- head pointer in forward mode: unchanged (it was already set)
          obtain ⟨f, t, rfl⟩ : ∃ f t, infos = f :: t := by
            cases infos with
            | nil => exact absurd rfl hinfosne
            | cons f t => exact ⟨f, t, rfl⟩
          have hheadval : headP = ptrOfB f := by
            have := inv.hhead
            rw [hrevf] at this
            simpa using this
          have hcond : ¬(pool.reverse = true ∨ headP = UNDEFINED_POINTER) := by
            rintro (h | h)
            · rw [hrevf] at h; cases h
            · rw [hheadval] at h
              exact ofNat_ne_undefined _ h
          rw [if_neg hcond, appendBlock_fst_reverse, hrevf]
          simp only [Bool.false_eq_true, if_false, List.cons_append, List.head?_cons,
            Option.map_some', Option.getD_some]
          exact hheadval

theorem headD_mem {l : List Nat} (h : l ≠ []) : l.head?.getD 0 ∈ l := by
  cases l with
  | nil => exact absurd rfl h
  | cons x t => exact List.mem_cons_self x t

theorem getLastD_mem {l : List Nat} (h : l ≠ []) : l.getLast?.getD 0 ∈ l := by
  cases hL : l.getLast? with
  | none =>
    rw [List.getLast?_eq_none_iff] at hL
    exact absurd hL h
  | some a => exact mem_of_getLast?Eq hL

theorem computeBloomFilterLength_le (len bpe : Nat) (hl : len ≤ BLOCK_SIZE)
    (hb : bpe ≤ 2 ^ 20) : computeBloomFilterLength len bpe ≤ 2 ^ 23 := by
  unfold computeBloomFilterLength BLOCK_SIZE at *
  have : len * bpe ≤ 128 * 2 ^ 20 := Nat.mul_le_mul hl hb
  omega

theorem compressAndAddNonPositional_step
    (pool : SegmentPool) (infos : List BlockInfo) (tailP headP : Int)
    (inv : PoolInv pool infos tailP headP)
    (data : List Nat)
    (hne : data ≠ []) (h32 : ∀ x ∈ data, x < 2 ^ 32) (hlen : data.length ≤ BLOCK_SIZE)
    (hbpe : pool.bitsPerElement ≤ 2 ^ 20)
    (hseg : pool.segment + 1 < 2 ^ 31) :
    ∃ b' : BlockInfo,
      (compressAndAddNonPositional pool data tailP).2 = ptrOfB b' ∧ b'.run = data ∧
      b'.reqspace = (OPT4 (if pool.reverse then data.reverse else data) true).length +
        (if pool.bloomEnabled then computeBloomFilterLength data.length pool.bitsPerElement
          else 0) + 8 ∧
      PoolInv (compressAndAddNonPositional pool data tailP).1 (infos ++ [b'])
        (compressAndAddNonPositional pool data tailP).2
        (if pool.reverse = true ∨ headP = UNDEFINED_POINTER
          then (compressAndAddNonPositional pool data tailP).2 else headP) := by
  have hlen' : data.length ≤ 128 := by
    have := hlen
    unfold BLOCK_SIZE at this
    exact this
  have hcsl : (OPT4 (if pool.reverse then data.reverse else data) true).length = data.length := by
    rw [OPT4_length]
    split <;> simp
  have hcfb := computeBloomFilterLength_le data.length pool.bitsPerElement hlen hbpe
  have hmaxmem : (if pool.reverse then data.head?.getD 0 else data.getLast?.getD 0) ∈ data := by
    split
    · exact headD_mem hne
    · exact getLastD_mem hne
  obtain ⟨b', h1, h2, _, _, hr, h3⟩ := appendBlock_step pool infos tailP headP inv
    ((OPT4 (if pool.reverse then data.reverse else data) true).length +
      (if pool.bloomEnabled then computeBloomFilterLength data.length pool.bitsPerElement
        else 0) + 8)
    (if pool.reverse then data.head?.getD 0 else data.getLast?.getD 0)
    data.length
    (OPT4 (if pool.reverse then data.reverse else data) true).length
    ((OPT4 (if pool.reverse then data.reverse else data) true).length + 7)
    (if pool.bloomEnabled then computeBloomFilterLength data.length pool.bitsPerElement else 0)
    (OPT4 (if pool.reverse then data.reverse else data) true ++
      (if pool.bloomEnabled then
        Int.ofNat (if pool.bloomEnabled then computeBloomFilterLength data.length
          pool.bitsPerElement else 0) ::
          (bloomFilterOf data (if pool.bloomEnabled then computeBloomFilterLength data.length
            pool.bitsPerElement else 0) pool.nbHash).map Int.ofNat
      else []))
    (OPT4 (if pool.reverse then data.reverse else data) true)
    data
    (bloomFilterOf data (if pool.bloomEnabled then computeBloomFilterLength data.length
      pool.bitsPerElement else 0) pool.nbHash)
    (by simp)
    (by rw [List.take_left])
    (by cases hbe : pool.bloomEnabled <;>
      simp [hbe, List.length_append, bloomFilterOf_length] <;> omega)
    (by
      intro hb
      rw [Nat.add_sub_cancel, List.drop_left, if_pos hb])
    (by omega)
    (by omega)
    (by omega)
    (by omega)
    (by
      unfold MAX_INT_VALUE
      cases hbe : pool.bloomEnabled <;> simp [hbe] <;> omega)
    hseg
    rfl
    rfl
    rfl
    rfl
    (by
      have := h32 _ hmaxmem
      omega)
    rfl
    rfl
    ([Int.ofNat ((OPT4 (if pool.reverse then data.reverse else data) true).length +
        (if pool.bloomEnabled then computeBloomFilterLength data.length pool.bitsPerElement
          else 0) + 8), UNKNOWN_SEGMENT, 0,
      Int.ofNat (if pool.reverse then data.head?.getD 0 else data.getLast?.getD 0),
      Int.ofNat ((OPT4 (if pool.reverse then data.reverse else data) true).length + 7),
      Int.ofNat data.length,
      Int.ofNat (OPT4 (if pool.reverse then data.reverse else data) true).length] ++
      OPT4 (if pool.reverse then data.reverse else data) true ++
      (if pool.bloomEnabled then
        Int.ofNat (if pool.bloomEnabled then computeBloomFilterLength data.length
          pool.bitsPerElement else 0) ::
          (bloomFilterOf data (if pool.bloomEnabled then computeBloomFilterLength data.length
            pool.bitsPerElement else 0) pool.nbHash).map Int.ofNat
      else []))
    (by rw [List.append_assoc])
  exact ⟨b', h1, h2, hr, h3⟩

theorem drop_append_exact (l1 l2 : List Int) (k : Nat) (hk : k = l1.length) :
    (l1 ++ l2).drop k = l2 := by
  subst hk
  exact List.drop_left l1 l2

theorem compressAndAddTfOnly_step
    (pool : SegmentPool) (infos : List BlockInfo) (tailP headP : Int)
    (inv : PoolInv pool infos tailP headP)
    (data tf : List Nat)
    (hne : data ≠ []) (h32 : ∀ x ∈ data, x < 2 ^ 32) (hlen : data.length ≤ BLOCK_SIZE)
    (htf : tf.length = data.length)
    (hbpe : pool.bitsPerElement ≤ 2 ^ 20)
    (hseg : pool.segment + 1 < 2 ^ 31) :
    ∃ b' : BlockInfo,
      (compressAndAddTfOnly pool data tf tailP).2 = ptrOfB b' ∧ b'.run = data ∧
      b'.reqspace = (OPT4 (if pool.reverse then data.reverse else data) true).length +
        (OPT4 (if pool.reverse then tf.reverse else tf) false).length +
        (if pool.bloomEnabled then computeBloomFilterLength data.length pool.bitsPerElement
          else 0) + 9 ∧
      PoolInv (compressAndAddTfOnly pool data tf tailP).1 (infos ++ [b'])
        (compressAndAddTfOnly pool data tf tailP).2
        (if pool.reverse = true ∨ headP = UNDEFINED_POINTER
          then (compressAndAddTfOnly pool data tf tailP).2 else headP) := by
  have hlen' : data.length ≤ 128 := by
    have := hlen
    unfold BLOCK_SIZE at this
    exact this
  have hcsl : (OPT4 (if pool.reverse then data.reverse else data) true).length = data.length := by
    rw [OPT4_length]
    split <;> simp
  have htfl : (OPT4 (if pool.reverse then tf.reverse else tf) false).length = tf.length := by
    rw [OPT4_length]
    split <;> simp
  have hcfb := computeBloomFilterLength_le data.length pool.bitsPerElement hlen hbpe
  have hmaxmem : (if pool.reverse then data.head?.getD 0 else data.getLast?.getD 0) ∈ data := by
    split
    · exact headD_mem hne
    · exact getLastD_mem hne
  obtain ⟨b', h1, h2, _, _, hr, h3⟩ := appendBlock_step pool infos tailP headP inv
    ((OPT4 (if pool.reverse then data.reverse else data) true).length +
      (OPT4 (if pool.reverse then tf.reverse else tf) false).length +
      (if pool.bloomEnabled then computeBloomFilterLength data.length pool.bitsPerElement
        else 0) + 9)
    (if pool.reverse then data.head?.getD 0 else data.getLast?.getD 0)
    data.length
    (OPT4 (if pool.reverse then data.reverse else data) true).length
    ((OPT4 (if pool.reverse then data.reverse else data) true).length +
      (OPT4 (if pool.reverse then tf.reverse else tf) false).length + 8)
    (if pool.bloomEnabled then computeBloomFilterLength data.length pool.bitsPerElement else 0)
    (OPT4 (if pool.reverse then data.reverse else data) true ++
      ((Int.ofNat (OPT4 (if pool.reverse then tf.reverse else tf) false).length ::
        OPT4 (if pool.reverse then tf.reverse else tf) false) ++
      (if pool.bloomEnabled then
        Int.ofNat (if pool.bloomEnabled then computeBloomFilterLength data.length
          pool.bitsPerElement else 0) ::
          (bloomFilterOf data (if pool.bloomEnabled then computeBloomFilterLength data.length
            pool.bitsPerElement else 0) pool.nbHash).map Int.ofNat
      else [])))
    (OPT4 (if pool.reverse then data.reverse else data) true)
    data
    (bloomFilterOf data (if pool.bloomEnabled then computeBloomFilterLength data.length
      pool.bitsPerElement else 0) pool.nbHash)
    (by simp)
    (by rw [List.take_left])
    (by cases hbe : pool.bloomEnabled <;>
      simp [hbe, List.length_append, bloomFilterOf_length] <;> omega)
    (by
      intro hb
      rw [← List.append_assoc]
      rw [drop_append_exact _ _ _ (by simp; omega), if_pos hb])
    (by omega)
    (by omega)
    (by omega)
    (by omega)
    (by
      unfold MAX_INT_VALUE
      cases hbe : pool.bloomEnabled <;> simp [hbe] <;> omega)
    hseg
    rfl
    rfl
    rfl
    rfl
    (by
      have := h32 _ hmaxmem
      omega)
    rfl
    rfl
    ([Int.ofNat ((OPT4 (if pool.reverse then data.reverse else data) true).length +
        (OPT4 (if pool.reverse then tf.reverse else tf) false).length +
        (if pool.bloomEnabled then computeBloomFilterLength data.length pool.bitsPerElement
          else 0) + 9), UNKNOWN_SEGMENT, 0,
      Int.ofNat (if pool.reverse then data.head?.getD 0 else data.getLast?.getD 0),
      Int.ofNat ((OPT4 (if pool.reverse then data.reverse else data) true).length +
        (OPT4 (if pool.reverse then tf.reverse else tf) false).length + 8),
      Int.ofNat data.length,
      Int.ofNat (OPT4 (if pool.reverse then data.reverse else data) true).length] ++
      OPT4 (if pool.reverse then data.reverse else data) true ++
      (Int.ofNat (OPT4 (if pool.reverse then tf.reverse else tf) false).length ::
        OPT4 (if pool.reverse then tf.reverse else tf) false) ++
      (if pool.bloomEnabled then
        Int.ofNat (if pool.bloomEnabled then computeBloomFilterLength data.length
          pool.bitsPerElement else 0) ::
          (bloomFilterOf data (if pool.bloomEnabled then computeBloomFilterLength data.length
            pool.bitsPerElement else 0) pool.nbHash).map Int.ofNat
      else []))
    (by simp [List.append_assoc])
  exact ⟨b', h1, h2, hr, h3⟩

theorem posChunks_length_le (ps : List Nat) :
    (posChunks ps).length ≤ ps.length / BLOCK_SIZE + 1 := by
  unfold posChunks
  rw [List.length_append, List.length_map, List.length_range]
  split <;> simp

theorem posChunks_mem_length (ps : List Nat) : ∀ c ∈ posChunks ps, c.length ≤ BLOCK_SIZE := by
  intro c hc
  unfold posChunks at hc
  rw [List.mem_append] at hc
  rcases hc with hc | hc
  · obtain ⟨j, _, rfl⟩ := List.mem_map.mp hc
    simp [List.length_take]
  · by_cases hr : ps.length % BLOCK_SIZE > 0
    · rw [if_pos hr, List.mem_singleton] at hc
      subst hc
      simp [BLOCK_SIZE, List.length_drop]
      omega
    · rw [if_neg hr] at hc
      simp at hc

theorem flatten_length_le (l : List (List Int)) (k : Nat) (h : ∀ c ∈ l, c.length ≤ k) :
    l.flatten.length ≤ l.length * k := by
  induction l with
  | nil => simp
  | cons c cs ih =>
    simp only [List.flatten_cons, List.length_append, List.length_cons]
    have h1 := h c (List.mem_cons_self _ _)
    have h2 := ih (fun d hd => h d (List.mem_cons_of_mem _ hd))
    have h3 : (cs.length + 1) * k = cs.length * k + k := by ring
    omega

theorem pblockOf_length_le (ps : List Nat) : (pblockOf ps).length ≤ 2 * ps.length + 129 := by
  have hcnt := posChunks_length_le ps
  have hmem := posChunks_mem_length ps
  unfold pblockOf
  have h1 : ∀ c ∈ (posChunks ps).map
      (fun c => Int.ofNat (OPT4 c false).length :: OPT4 c false), c.length ≤ 129 := by
    intro c hc
    obtain ⟨d, hd, rfl⟩ := List.mem_map.mp hc
    have hd' := hmem d hd
    unfold BLOCK_SIZE at hd'
    simp [OPT4_length]
    omega
  have h2 := flatten_length_le _ 129 h1
  rw [List.length_map] at h2
  unfold BLOCK_SIZE at hcnt
  omega

theorem splitRuns_length_sum_le (tf ps : List Nat) :
    ((splitRuns tf ps).map List.length).sum ≤ ps.length := by
  induction tf generalizing ps with
  | nil => simp [splitRuns]
  | cons t ts ih =>
    simp only [splitRuns, List.map_cons, List.sum_cons]
    have h1 := ih (ps.drop t)
    simp only [List.length_take, List.length_drop] at *
    omega

theorem splitRuns_flatten_rev_le (tf ps : List Nat) :
    ((splitRuns tf ps).reverse.flatten).length ≤ ps.length := by
  rw [List.length_flatten, List.map_reverse, List.sum_reverse]
  exact splitRuns_length_sum_le tf ps

theorem compressAndAddPositional_step
    (pool : SegmentPool) (infos : List BlockInfo) (tailP headP : Int)
    (inv : PoolInv pool infos tailP headP)
    (data tf positions : List Nat)
    (hne : data ≠ []) (h32 : ∀ x ∈ data, x < 2 ^ 32) (hlen : data.length ≤ BLOCK_SIZE)
    (htf : tf.length = data.length)
    (hpos : positions.length ≤ 2 ^ 20)
    (hbpe : pool.bitsPerElement ≤ 2 ^ 20)
    (hseg : pool.segment + 1 < 2 ^ 31) :
    ∃ b' : BlockInfo,
      (compressAndAddPositional pool data tf positions tailP).2 = ptrOfB b' ∧ b'.run = data ∧
      b'.reqspace = (OPT4 (if pool.reverse then data.reverse else data) true).length +
        (OPT4 (if pool.reverse then tf.reverse else tf) false).length +
        (pblockOf (if pool.reverse then ((splitRuns tf positions).reverse).flatten
          else positions)).length +
        (if pool.bloomEnabled then computeBloomFilterLength data.length pool.bitsPerElement
          else 0) + 11 ∧
      PoolInv (compressAndAddPositional pool data tf positions tailP).1 (infos ++ [b'])
        (compressAndAddPositional pool data tf positions tailP).2
        (if pool.reverse = true ∨ headP = UNDEFINED_POINTER
          then (compressAndAddPositional pool data tf positions tailP).2 else headP) := by
  have hlen' : data.length ≤ 128 := by
    have := hlen
    unfold BLOCK_SIZE at this
    exact this
  have hcsl : (OPT4 (if pool.reverse then data.reverse else data) true).length = data.length := by
    rw [OPT4_length]
    split <;> simp
  have htfl : (OPT4 (if pool.reverse then tf.reverse else tf) false).length = tf.length := by
    rw [OPT4_length]
    split <;> simp
  have hcfb := computeBloomFilterLength_le data.length pool.bitsPerElement hlen hbpe
  have hp2 : (if pool.reverse then ((splitRuns tf positions).reverse).flatten
      else positions).length ≤ positions.length := by
    split
    · exact splitRuns_flatten_rev_le tf positions
    · exact le_refl _
  have hpc := pblockOf_length_le
    (if pool.reverse then ((splitRuns tf positions).reverse).flatten else positions)
  have hmaxmem : (if pool.reverse then data.head?.getD 0 else data.getLast?.getD 0) ∈ data := by
    split
    · exact headD_mem hne
    · exact getLastD_mem hne
  obtain ⟨b', h1, h2, _, _, hr, h3⟩ := appendBlock_step pool infos tailP headP inv
    ((OPT4 (if pool.reverse then data.reverse else data) true).length +
      (OPT4 (if pool.reverse then tf.reverse else tf) false).length +
      (pblockOf (if pool.reverse then ((splitRuns tf positions).reverse).flatten
        else positions)).length +
      (if pool.bloomEnabled then computeBloomFilterLength data.length pool.bitsPerElement
        else 0) + 11)
    (if pool.reverse then data.head?.getD 0 else data.getLast?.getD 0)
    data.length
    (OPT4 (if pool.reverse then data.reverse else data) true).length
    ((OPT4 (if pool.reverse then data.reverse else data) true).length +
      (OPT4 (if pool.reverse then tf.reverse else tf) false).length +
      (pblockOf (if pool.reverse then ((splitRuns tf positions).reverse).flatten
        else positions)).length + 10)
    (if pool.bloomEnabled then computeBloomFilterLength data.length pool.bitsPerElement else 0)
    (OPT4 (if pool.reverse then data.reverse else data) true ++
      ((Int.ofNat (OPT4 (if pool.reverse then tf.reverse else tf) false).length ::
        OPT4 (if pool.reverse then tf.reverse else tf) false) ++
      ((Int.ofNat positions.length ::
        Int.ofNat (posChunks (if pool.reverse then ((splitRuns tf positions).reverse).flatten
          else positions)).length ::
        pblockOf (if pool.reverse then ((splitRuns tf positions).reverse).flatten
          else positions)) ++
      (if pool.bloomEnabled then
        Int.ofNat (if pool.bloomEnabled then computeBloomFilterLength data.length
          pool.bitsPerElement else 0) ::
          (bloomFilterOf data (if pool.bloomEnabled then computeBloomFilterLength data.length
            pool.bitsPerElement else 0) pool.nbHash).map Int.ofNat
      else []))))
    (OPT4 (if pool.reverse then data.reverse else data) true)
    data
    (bloomFilterOf data (if pool.bloomEnabled then computeBloomFilterLength data.length
      pool.bitsPerElement else 0) pool.nbHash)
    (by simp)
    (by rw [List.take_left])
    (by cases hbe : pool.bloomEnabled <;>
      simp [hbe, List.length_append, bloomFilterOf_length] <;> omega)
    (by
      intro hb
      rw [← List.append_assoc, ← List.append_assoc]
      rw [drop_append_exact _ _ _ (by simp; omega), if_pos hb])
    (by omega)
    (by omega)
    (by omega)
    (by omega)
    (by
      unfold MAX_INT_VALUE
      cases hbe : pool.bloomEnabled <;> simp [hbe] <;> omega)
    hseg
    rfl
    rfl
    rfl
    rfl
    (by
      have := h32 _ hmaxmem
      omega)
    rfl
    rfl
    ([Int.ofNat ((OPT4 (if pool.reverse then data.reverse else data) true).length +
        (OPT4 (if pool.reverse then tf.reverse else tf) false).length +
        (pblockOf (if pool.reverse then ((splitRuns tf positions).reverse).flatten
          else positions)).length +
        (if pool.bloomEnabled then computeBloomFilterLength data.length pool.bitsPerElement
          else 0) + 11), UNKNOWN_SEGMENT, 0,
      Int.ofNat (if pool.reverse then data.head?.getD 0 else data.getLast?.getD 0),
      Int.ofNat ((OPT4 (if pool.reverse then data.reverse else data) true).length +
        (OPT4 (if pool.reverse then tf.reverse else tf) false).length +
        (pblockOf (if pool.reverse then ((splitRuns tf positions).reverse).flatten
          else positions)).length + 10),
      Int.ofNat data.length,
      Int.ofNat (OPT4 (if pool.reverse then data.reverse else data) true).length] ++
      OPT4 (if pool.reverse then data.reverse else data) true ++
      (Int.ofNat (OPT4 (if pool.reverse then tf.reverse else tf) false).length ::
        OPT4 (if pool.reverse then tf.reverse else tf) false) ++
      (Int.ofNat positions.length ::
        Int.ofNat (posChunks (if pool.reverse then ((splitRuns tf positions).reverse).flatten
          else positions)).length ::
        pblockOf (if pool.reverse then ((splitRuns tf positions).reverse).flatten
          else positions)) ++
      (if pool.bloomEnabled then
        Int.ofNat (if pool.bloomEnabled then computeBloomFilterLength data.length
          pool.bitsPerElement else 0) ::
          (bloomFilterOf data (if pool.bloomEnabled then computeBloomFilterLength data.length
            pool.bitsPerElement else 0) pool.nbHash).map Int.ofNat
      else []))
    (by simp [List.append_assoc])
  exact ⟨b', h1, h2, hr, h3⟩

theorem applyCall_fst_bitsPerElement (pool : SegmentPool) (c : AppendCall) (t : Int) :
    (applyCall pool c t).1.bitsPerElement = pool.bitsPerElement := by
  cases c <;> rfl

theorem applyCall_fst_reverse (pool : SegmentPool) (c : AppendCall) (t : Int) :
    (applyCall pool c t).1.reverse = pool.reverse := by
  cases c <;> rfl

theorem applyCall_fst_bloomEnabled (pool : SegmentPool) (c : AppendCall) (t : Int) :
    (applyCall pool c t).1.bloomEnabled = pool.bloomEnabled := by
  cases c <;> rfl

theorem applyCall_fst_nbHash (pool : SegmentPool) (c : AppendCall) (t : Int) :
    (applyCall pool c t).1.nbHash = pool.nbHash := by
  cases c <;> rfl

theorem applyCall_fst_segment_le (pool : SegmentPool) (c : AppendCall) (t : Int) :
    (applyCall pool c t).1.segment ≤ pool.segment + 1 := by
  cases c <;> exact segAfter_le _ _

theorem applyCall_step
    (pool : SegmentPool) (infos : List BlockInfo) (tailP headP : Int)
    (inv : PoolInv pool infos tailP headP)
    (c : AppendCall) (hc : ValidCall c)
    (hbpe : pool.bitsPerElement ≤ 2 ^ 20)
    (hseg : pool.segment + 1 < 2 ^ 31) :
    ∃ b' : BlockInfo,
      (applyCall pool c tailP).2 = ptrOfB b' ∧ b'.run = callData c ∧
      PoolInv (applyCall pool c tailP).1 (infos ++ [b']) (applyCall pool c tailP).2
        (if pool.reverse = true ∨ headP = UNDEFINED_POINTER
          then (applyCall pool c tailP).2 else headP) := by
  cases c with
  | nonpos d =>
    obtain ⟨h1, h2, h3⟩ := hc
    obtain ⟨b', g1, g2, _, g4⟩ :=
      compressAndAddNonPositional_step pool infos tailP headP inv d h1 h2 h3 hbpe hseg
    exact ⟨b', g1, g2, g4⟩
  | tfonly d t =>
    obtain ⟨h1, h2, h3, h4⟩ := hc
    obtain ⟨b', g1, g2, _, g4⟩ :=
      compressAndAddTfOnly_step pool infos tailP headP inv d t h1 h2 h3 h4 hbpe hseg
    exact ⟨b', g1, g2, g4⟩
  | positional d t ps =>
    obtain ⟨h1, h2, h3, h4, h5⟩ := hc
    obtain ⟨b', g1, g2, _, g4⟩ :=
      compressAndAddPositional_step pool infos tailP headP inv d t ps h1 h2 h3 h4 h5 hbpe hseg
    exact ⟨b', g1, g2, g4⟩

theorem buildChainFrom_inv
    (cs : List AppendCall) (pool : SegmentPool) (infos : List BlockInfo) (tailP headP : Int)
    (inv : PoolInv pool infos tailP headP)
    (hcs : ∀ c ∈ cs, ValidCall c)
    (hbpe : pool.bitsPerElement ≤ 2 ^ 20)
    (hseg : pool.segment + cs.length < 2 ^ 31) :
    ∃ infos' : List BlockInfo,
      infos'.map BlockInfo.run = cs.map callData ∧
      infos'.map ptrOfB = chainTrace pool tailP cs ∧
      PoolInv (buildChainFrom pool tailP headP cs).1 (infos ++ infos')
        (buildChainFrom pool tailP headP cs).2.1 (buildChainFrom pool tailP headP cs).2.2 := by
  induction cs generalizing pool infos tailP headP with
  | nil => exact ⟨[], rfl, rfl, by simpa using inv⟩
  | cons c cs ih =>
    obtain ⟨b', h1, h2, h3⟩ := applyCall_step pool infos tailP headP inv c
      (hcs c (List.mem_cons_self _ _))
      hbpe (by simp only [List.length_cons] at hseg; omega)
    have hbpe' : (applyCall pool c tailP).1.bitsPerElement ≤ 2 ^ 20 := by
      rw [applyCall_fst_bitsPerElement]
      exact hbpe
    have hseg' : (applyCall pool c tailP).1.segment + cs.length < 2 ^ 31 := by
      have := applyCall_fst_segment_le pool c tailP
      simp only [List.length_cons] at hseg
      omega
    obtain ⟨infos', g1, g2, g3⟩ := ih (applyCall pool c tailP).1 (infos ++ [b'])
      (applyCall pool c tailP).2
      (if pool.reverse = true ∨ headP = UNDEFINED_POINTER
        then (applyCall pool c tailP).2 else headP)
      h3 (fun d hd => hcs d (List.mem_cons_of_mem _ hd)) hbpe' hseg'
    refine ⟨b' :: infos', ?_, ?_, ?_⟩
    · simp only [List.map_cons]
      rw [h2, g1]
    · simp only [List.map_cons]
      show ptrOfB b' :: infos'.map ptrOfB =
        (applyCall pool c tailP).2 ::
          chainTrace (applyCall pool c tailP).1 (applyCall pool c tailP).2 cs
      rw [g2, h1]
    · have heq : (infos ++ [b']) ++ infos' = infos ++ b' :: infos' := by simp
      rw [← heq]
      exact g3

theorem PoolInv_create (numberOfPools : Nat) (reverse bloomEnabled : Bool)
    (nbHash bitsPerElement : Nat) :
    PoolInv (createSegmentPool numberOfPools reverse bloomEnabled nbHash bitsPerElement)
      [] UNDEFINED_POINTER UNDEFINED_POINTER := by
  refine ⟨?_, ?_, ?_, ?_, ?_, ?_, ?_, ?_⟩
  · intro b hb
    simp at hb
  · constructor
    · cases hr : (createSegmentPool numberOfPools reverse bloomEnabled
        nbHash bitsPerElement).reverse <;> simp [ChainedLinks]
    · intro b hb
      cases hr : (createSegmentPool numberOfPools reverse bloomEnabled
        nbHash bitsPerElement).reverse <;> simp [hr] at hb
  · intro b hb
    simp at hb
  · exact List.Pairwise.nil
  · show (0 : Nat) ≤ MAX_INT_VALUE
    unfold MAX_INT_VALUE
    omega
  · show (0 : Nat) < 2 ^ 31
    omega
  · rfl
  · cases hr : (createSegmentPool numberOfPools reverse bloomEnabled
      nbHash bitsPerElement).reverse <;> rfl

theorem BlockFacts_len_eq_csize (pool : SegmentPool) (b : BlockInfo)
    (hf : BlockFacts pool b) : b.len = b.csize := by
  rw [hf.hlen, hf.hcsize, hf.hwords, OPT4_length]
  split <;> simp

theorem decompressDocidBlock_at (pool : SegmentPool) (b : BlockInfo)
    (hf : BlockFacts pool b) :
    decompressDocidBlock pool (ptrOfB b) = (b.len, b.run) := by
  have hs32 : b.seg < 2 ^ 32 := by
    have := hf.hseg31
    omega
  have ho32 : b.off < 2 ^ 32 := by
    have h1 := hf.hoff32
    have h2 := hf.h8
    omega
  have hcs32 : b.csize < 2 ^ 32 := by
    have h1 := hf.hoff32
    have h2 := hf.hcs7
    omega
  have hlc := BlockFacts_len_eq_csize pool b hf
  have hseg' : ptrSeg (ptrOfB b) = b.seg := ptrSeg_ofNat_ENCODE b.seg b.off hs32 ho32
  have hoff' : ptrOff (ptrOfB b) = b.off := ptrOff_ofNat_ENCODE b.seg b.off hs32 ho32
  simp only [decompressDocidBlock, hseg', hoff']
  rw [hf.w6, u32_ofNat b.csize hcs32, hf.w5, u32_ofNat b.len (by omega),
    hf.wdoc, hf.hwords, detailed_p4_decode_OPT4]
  cases hr : pool.reverse <;> simp [hr]

theorem nextPointer_last (pool : SegmentPool) (b : BlockInfo)
    (hf : BlockFacts pool b)
    (hlast : pool.mem b.seg (b.off + 1) = UNKNOWN_SEGMENT) :
    nextPointer pool (ptrOfB b) = UNDEFINED_POINTER := by
  have hs32 : b.seg < 2 ^ 32 := by
    have := hf.hseg31
    omega
  have ho32 : b.off < 2 ^ 32 := by
    have h1 := hf.hoff32
    have h2 := hf.h8
    omega
  have hseg' : ptrSeg (ptrOfB b) = b.seg := ptrSeg_ofNat_ENCODE b.seg b.off hs32 ho32
  have hoff' : ptrOff (ptrOfB b) = b.off := ptrOff_ofNat_ENCODE b.seg b.off hs32 ho32
  have hne : ptrOfB b ≠ UNDEFINED_POINTER := ofNat_ne_undefined _
  simp only [nextPointer, if_neg hne, hseg', hoff']
  rw [if_pos hlast]

theorem nextPointer_link (pool : SegmentPool) (b b2 : BlockInfo)
    (hf : BlockFacts pool b)
    (hl : linkRel pool.mem b b2) :
    nextPointer pool (ptrOfB b) = ptrOfB b2 := by
  have hs32 : b.seg < 2 ^ 32 := by
    have := hf.hseg31
    omega
  have ho32 : b.off < 2 ^ 32 := by
    have h1 := hf.hoff32
    have h2 := hf.h8
    omega
  have hseg' : ptrSeg (ptrOfB b) = b.seg := ptrSeg_ofNat_ENCODE b.seg b.off hs32 ho32
  have hoff' : ptrOff (ptrOfB b) = b.off := ptrOff_ofNat_ENCODE b.seg b.off hs32 ho32
  have hne : ptrOfB b ≠ UNDEFINED_POINTER := ofNat_ne_undefined _
  simp only [nextPointer, if_neg hne, hseg', hoff', hl.1, hl.2]
  rw [if_neg (show Int.ofNat b2.seg ≠ UNKNOWN_SEGMENT from ofNat_ne_undefined b2.seg),
    toNat_ofNat_id, toNat_ofNat_id]
  rfl

theorem ChainAt_tail (pool : SegmentPool) (b : BlockInfo) (bs : List BlockInfo)
    (h : ChainAt pool (b :: bs)) (hne : bs ≠ []) : ChainAt pool bs := by
  obtain ⟨hfacts, hlinks, hterm⟩ := h
  refine ⟨fun c hc => hfacts c (List.mem_cons_of_mem _ hc), ?_, ?_⟩
  · cases bs with
    | nil => exact trivial
    | cons b2 t => exact hlinks.2
  · intro c hc
    apply hterm
    cases bs with
    | nil => exact absurd rfl hne
    | cons b2 t =>
      rw [List.getLast?_cons_cons]
      exact hc

theorem chainDecode_undef (pool : SegmentPool) (fuel : Nat) :
    chainDecode pool UNDEFINED_POINTER fuel = [] := by
  cases fuel <;> simp [chainDecode]

theorem chainDecode_chain (pool : SegmentPool) :
    ∀ (bs : List BlockInfo) (fuel : Nat), ChainAt pool bs → bs.length ≤ fuel →
      chainDecode pool ((bs.head?.map ptrOfB).getD UNDEFINED_POINTER) fuel
        = bs.map BlockInfo.run := by
  intro bs
  induction bs with
  | nil =>
    intro fuel _ _
    exact chainDecode_undef pool fuel
  | cons b bs ih =>
    intro fuel hchain hfl
    cases fuel with
    | zero => simp at hfl
    | succ f =>
      have hfb : BlockFacts pool b := hchain.1 b (List.mem_cons_self _ _)
      have hdec := decompressDocidBlock_at pool b hfb
      have hlr : b.len = b.run.length := hfb.hlen
      simp only [List.head?_cons, Option.map_some, Option.getD_some]
      show chainDecode pool (ptrOfB b) (f + 1) = b.run :: bs.map BlockInfo.run
      have hne : ptrOfB b ≠ UNDEFINED_POINTER := ofNat_ne_undefined _
      simp only [chainDecode, if_neg hne]
      rw [hdec]
      simp only [hlr, List.take_length]
      congr 1
      cases bs with
      | nil =>
        have hlast : pool.mem b.seg (b.off + 1) = UNKNOWN_SEGMENT :=
          hchain.2.2 b (by simp)
        rw [nextPointer_last pool b hfb hlast]
        exact chainDecode_undef pool f
      | cons b2 t =>
        have hl : linkRel pool.mem b b2 := hchain.2.1.1
        rw [nextPointer_link pool b b2 hfb hl]
        have htail := ChainAt_tail pool b (b2 :: t) hchain (by simp)
        have := ih f htail (by simp at hfl ⊢; omega)
        simpa using this

theorem ChainAt_of_PoolInv (pool : SegmentPool) (infos : List BlockInfo)
    (tailP headP : Int) (inv : PoolInv pool infos tailP headP) :
    ChainAt pool (if pool.reverse then infos.reverse else infos) := by
  constructor
  · intro b hb
    apply inv.facts
    by_cases hr : pool.reverse = true
    · rw [if_pos hr] at hb
      exact List.mem_reverse.mp hb
    · rw [if_neg hr] at hb
      exact hb
  · exact inv.links

theorem head_of_traversal (pool : SegmentPool) (infos : List BlockInfo)
    (tailP headP : Int) (inv : PoolInv pool infos tailP headP) :
    headP = (((if pool.reverse then infos.reverse else infos).head?).map ptrOfB).getD
      UNDEFINED_POINTER := by
  rw [inv.hhead]
  by_cases hr : pool.reverse = true
  · rw [if_pos hr, if_pos hr, List.head?_reverse]
  · rw [if_neg hr, if_neg hr]

theorem containsLoop_chain (pool : SegmentPool) (docid : Nat) (porig : Int)
    (hbe : pool.bloomEnabled = true) :
    ∀ (bs : List BlockInfo) (b : BlockInfo) (fuel : Nat), ChainAt pool (b :: bs) →
      (b :: bs).length ≤ fuel →
      containsLoop pool docid porig b.seg b.off fuel
        = some (containsDocidModel pool.reverse pool.nbHash pool.bitsPerElement porig docid
            ((b :: bs).map (fun c => (c.run, ptrOfB c)))) := by
  intro bs
  induction bs with
  | nil =>
    intro b fuel hchain hfl
    cases fuel with
    | zero => simp at hfl
    | succ f =>
      have hfb : BlockFacts pool b := hchain.1 b (List.mem_cons_self _ _)
      have hterm : pool.mem b.seg (b.off + 1) = UNKNOWN_SEGMENT := hchain.2.2 b (by simp)
      simp only [containsLoop, List.map_cons, List.map_nil, containsDocidModel]
      rw [hfb.w3, u32_ofNat _ hfb.hmax32, ← hfb.hmax]
      cases hlt : LESS_THAN b.maxDoc docid pool.reverse with
      | true =>
        rw [if_pos rfl, if_pos hterm]
        rfl
      | false =>
        rw [if_neg (by simp)]
        by_cases heq : b.maxDoc = docid
        · rw [if_pos heq, if_pos heq]
          rfl
        · rw [if_neg heq, if_neg heq]
          have hbb32 : b.bloomBase < 2 ^ 32 := by
            have h1 := hfb.hbbfs
            have h2 := hfb.hoff32
            omega
          have hfs32 : b.filterSize < 2 ^ 32 := by
            have h1 := hfb.hbbfs
            have h2 := hfb.hoff32
            omega
          obtain ⟨hwb1, hwb2⟩ := hfb.wbloom hbe
          rw [hfb.w4, u32_ofNat _ hbb32]
          rw [hwb1, u32_ofNat _ hfs32, hwb2]
          rw [hfb.hfilter, hfb.hfsize, if_pos hbe]
          rfl
  | cons b2 t ih =>
    intro b fuel hchain hfl
    cases fuel with
    | zero => simp at hfl
    | succ f =>
      have hfb : BlockFacts pool b := hchain.1 b (List.mem_cons_self _ _)
      have hl : linkRel pool.mem b b2 := hchain.2.1.1
      simp only [containsLoop, List.map_cons, containsDocidModel]
      rw [hfb.w3, u32_ofNat _ hfb.hmax32, ← hfb.hmax]
      cases hlt : LESS_THAN b.maxDoc docid pool.reverse with
      | true =>
        rw [if_pos rfl]
        rw [hl.1, hl.2,
          if_neg (show Int.ofNat b2.seg ≠ UNKNOWN_SEGMENT from ofNat_ne_undefined b2.seg),
          toNat_ofNat_id, toNat_ofNat_id]
        have htail := ChainAt_tail pool b (b2 :: t) hchain (by simp)
        have := ih b2 f htail (by simp at hfl ⊢; omega)
        rw [this, if_pos rfl]
        simp only [List.map_cons, containsDocidModel]
      | false =>
        rw [if_neg (by simp)]
        by_cases heq : b.maxDoc = docid
        · rw [if_pos heq, if_pos heq]
          rfl
        · rw [if_neg heq, if_neg heq]
          have hbb32 : b.bloomBase < 2 ^ 32 := by
            have h1 := hfb.hbbfs
            have h2 := hfb.hoff32
            omega
          have hfs32 : b.filterSize < 2 ^ 32 := by
            have h1 := hfb.hbbfs
            have h2 := hfb.hoff32
            omega
          obtain ⟨hwb1, hwb2⟩ := hfb.wbloom hbe
          rw [hfb.w4, u32_ofNat _ hbb32]
          rw [hwb1, u32_ofNat _ hfs32, hwb2]
          rw [hfb.hfilter, hfb.hfsize, if_pos hbe]
          rfl

theorem containsDocid_at (pool : SegmentPool) (docid : Nat) (b : BlockInfo)
    (fuel : Nat) (hf : BlockFacts pool b) :
    containsDocid pool docid (ptrOfB b) fuel
      = containsLoop pool docid (ptrOfB b) b.seg b.off fuel := by
  have hs32 : b.seg < 2 ^ 32 := by
    have := hf.hseg31
    omega
  have ho32 : b.off < 2 ^ 32 := by
    have h1 := hf.hoff32
    have h2 := hf.h8
    omega
  have hne : ptrOfB b ≠ UNDEFINED_POINTER := ofNat_ne_undefined _
  have hseg' : ptrSeg (ptrOfB b) = b.seg := ptrSeg_ofNat_ENCODE b.seg b.off hs32 ho32
  have hoff' : ptrOff (ptrOfB b) = b.off := ptrOff_ofNat_ENCODE b.seg b.off hs32 ho32
  unfold containsDocid
  rw [if_neg hne, hseg', hoff']

theorem buildChainFrom_fst_reverse :
    ∀ (cs : List AppendCall) (pool : SegmentPool) (t h : Int),
      (buildChainFrom pool t h cs).1.reverse = pool.reverse := by
  intro cs
  induction cs with
  | nil => intro pool t h; rfl
  | cons c cs ih =>
    intro pool t h
    show (buildChainFrom (applyCall pool c t).1 (applyCall pool c t).2 _ cs).1.reverse = _
    rw [ih]
    exact applyCall_fst_reverse pool c t

theorem buildChainFrom_fst_bloomEnabled :
    ∀ (cs : List AppendCall) (pool : SegmentPool) (t h : Int),
      (buildChainFrom pool t h cs).1.bloomEnabled = pool.bloomEnabled := by
  intro cs
  induction cs with
  | nil => intro pool t h; rfl
  | cons c cs ih =>
    intro pool t h
    show (buildChainFrom (applyCall pool c t).1 (applyCall pool c t).2 _ cs).1.bloomEnabled = _
    rw [ih]
    exact applyCall_fst_bloomEnabled pool c t

theorem buildChainFrom_fst_nbHash :
    ∀ (cs : List AppendCall) (pool : SegmentPool) (t h : Int),
      (buildChainFrom pool t h cs).1.nbHash = pool.nbHash := by
  intro cs
  induction cs with
  | nil => intro pool t h; rfl
  | cons c cs ih =>
    intro pool t h
    show (buildChainFrom (applyCall pool c t).1 (applyCall pool c t).2 _ cs).1.nbHash = _
    rw [ih]
    exact applyCall_fst_nbHash pool c t

theorem buildChainFrom_fst_bitsPerElement :
    ∀ (cs : List AppendCall) (pool : SegmentPool) (t h : Int),
      (buildChainFrom pool t h cs).1.bitsPerElement = pool.bitsPerElement := by
  intro cs
  induction cs with
  | nil => intro pool t h; rfl
  | cons c cs ih =>
    intro pool t h
    show (buildChainFrom (applyCall pool c t).1 (applyCall pool c t).2 _ cs).1.bitsPerElement = _
    rw [ih]
    exact applyCall_fst_bitsPerElement pool c t

theorem chain_next_last (pool : SegmentPool) (bs : List BlockInfo) (b : BlockInfo)
    (h : ChainAt pool bs) (hlast : bs.getLast? = some b) :
    nextPointer pool (ptrOfB b) = UNDEFINED_POINTER :=
  nextPointer_last pool b (h.1 b (mem_of_getLast?Eq hlast)) (h.2.2 b hlast)

theorem chain_next_dropLast (pool : SegmentPool) :
    ∀ (bs : List BlockInfo), ChainAt pool bs →
      ∀ b ∈ bs.dropLast, nextPointer pool (ptrOfB b) ≠ UNDEFINED_POINTER := by
  intro bs
  induction bs with
  | nil =>
    intro _ b hb
    simp at hb
  | cons a t ih =>
    intro h b hb
    cases t with
    | nil => simp at hb
    | cons a2 t2 =>
      rw [show (a :: a2 :: t2).dropLast = a :: (a2 :: t2).dropLast from rfl] at hb
      rcases List.mem_cons.mp hb with rfl | hb2
      · rw [nextPointer_link pool b a2 (h.1 b (List.mem_cons_self _ _)) h.2.1.1]
        exact ofNat_ne_undefined _
      · exact ih (ChainAt_tail pool a (a2 :: t2) h (by simp)) b hb2

theorem map_pair_eq_zip {α β γ : Type} (l : List α) (f : α → β) (g : α → γ) :
    l.map (fun x => (f x, g x)) = (l.map f).zip (l.map g) := by
  induction l with
  | nil => rfl
  | cons x xs ih => simp [ih]

/-! The claims. -/

/-- C7: pointer encoding round-trips — for segment and offset each below
`2 ^ 32`, `DECODE_SEGMENT (ENCODE_POINTER s o) = s` and
`DECODE_OFFSET (ENCODE_POINTER s o) = o`, the segment sitting in the upper
and the offset in the lower 32 bits of the 64-bit value. -/
theorem C7_pointer_roundtrip (s o : Nat) (hs : s < 2 ^ 32) (ho : o < 2 ^ 32) :
    DECODE_SEGMENT (ENCODE_POINTER s o) = s ∧ DECODE_OFFSET (ENCODE_POINTER s o) = o ∧
    ENCODE_POINTER s o = s * 2 ^ 32 + o :=
  ⟨DECODE_SEGMENT_ENCODE s o hs ho, DECODE_OFFSET_ENCODE s o hs ho,
   ENCODE_POINTER_eq s o hs ho⟩

theorem C7_pointer_roundtrip_witness :
    (3 : Nat) < 2 ^ 32 ∧ (5 : Nat) < 2 ^ 32 ∧
    (DECODE_SEGMENT (ENCODE_POINTER 3 5) = 3 ∧ DECODE_OFFSET (ENCODE_POINTER 3 5) = 5 ∧
      ENCODE_POINTER 3 5 = 3 * 2 ^ 32 + 5) :=
  ⟨by decide, by decide, C7_pointer_roundtrip 3 5 (by decide) (by decide)⟩

/-- C9: `nextPointer` maps `UNDEFINED_POINTER` to `UNDEFINED_POINTER` for
every pool — in particular for every arena content, so no arena word is
consulted and the sentinel is absorbing under iteration. -/
theorem C9_nextPointer_sentinel (pool : SegmentPool) :
    nextPointer pool UNDEFINED_POINTER = UNDEFINED_POINTER := by
  unfold nextPointer
  rw [if_pos rfl]

/-- C10: when `k` is at or beyond the capacity or no vector is stored for
`k`, `getDocumentVector` returns the caller's buffer and the store
unchanged. -/
theorem C10_get_guard (vectors : DocumentVector) (document : List Nat) (length k : Nat)
    (h : k ≥ vectors.capacity ∨ vectors.document k = none) :
    getDocumentVector vectors document length k = (document, vectors) := by
  unfold getDocumentVector
  rw [if_pos h]

theorem C10_get_guard_witness :
    ((2 : Nat) ≥ (DocumentVector.mk 2 (fun _ => 0) (fun _ => none)).capacity ∨
      (DocumentVector.mk 2 (fun _ => 0) (fun _ => none)).document 2 = none) ∧
    getDocumentVector (DocumentVector.mk 2 (fun _ => 0) (fun _ => none)) [5, 6] 2 2
      = ([5, 6], DocumentVector.mk 2 (fun _ => 0) (fun _ => none)) :=
  ⟨Or.inl (le_refl 2), C10_get_guard _ _ _ _ (Or.inl (le_refl 2))⟩

/-- C8: on an `-algorithm` value that is none of the five known names the
driver's prologue reaches the invalid-algorithm exit: no retrieval work
runs, and the path ends in a valueless `return;` from `int main`, so the
exit value is `none` (no status is specified) rather than a guaranteed
non-zero status. -/
theorem C8_unknown_algorithm (s : String)
    (h : s ≠ "SvS" ∧ s ≠ "WAND" ∧ s ≠ "MBWAND" ∧ s ≠ "BWAND_OR" ∧ s ≠ "BWAND_AND") :
    retrievalDispatch s = RetrievalOutcome.invalidAlgorithm ∧
    retrievalExitValue (retrievalDispatch s) = none := by
  obtain ⟨h1, h2, h3, h4, h5⟩ := h
  have hd : retrievalDispatch s = RetrievalOutcome.invalidAlgorithm := by
    unfold retrievalDispatch algorithmOfString
    rw [if_neg h1, if_neg h2, if_neg h3, if_neg h4, if_neg h5]
  refine ⟨hd, ?_⟩
  rw [hd]
  rfl

theorem C8_unknown_algorithm_witness :
    ("foo" ≠ "SvS" ∧ "foo" ≠ "WAND" ∧ "foo" ≠ "MBWAND" ∧ "foo" ≠ "BWAND_OR" ∧
      "foo" ≠ "BWAND_AND") ∧
    (retrievalDispatch "foo" = RetrievalOutcome.invalidAlgorithm ∧
      retrievalExitValue (retrievalDispatch "foo") = none) :=
  ⟨by decide, C8_unknown_algorithm "foo" (by decide)⟩

/-- C3: mode detection is broken — word 4 of a block stores the Bloom base
`dcsize + 7`, not `dcsize`, so on a pool holding one block written by
`compressAndAddNonPositional` (docids `[1]`, Bloom disabled)
`isTermFrequencyPresent` answers 1 and `isPositional` answers 1, though the
claim requires 0 for both on a non-positional first block. -/
theorem C3_mode_detection :
    isTermFrequencyPresent
        (compressAndAddNonPositional (createSegmentPool 1 false false 0 0) [1]
          UNDEFINED_POINTER).1 = 1 ∧
    isPositional
        (compressAndAddNonPositional (createSegmentPool 1 false false 0 0) [1]
          UNDEFINED_POINTER).1 = 1 := by
  decide

/-- C6 (amended): the dominance the indexer maintains is per update step and
under the running average document length of that step — after `process`
handles a document, the stored maximum's BM25 tf score is at least the score
of the occurrence just processed, both evaluated at the collection average
current at that moment (not the final average). -/
theorem C6_bm25_step_dominance (st : IdxState) (tf docLen : Nat) :
    bm25tf tf docLen
        (((processDoc st tf docLen).totalDocLen : ℚ) /
          ((processDoc st tf docLen).totalDocs : ℚ))
      ≤ bm25tf (processDoc st tf docLen).maxTf (processDoc st tf docLen).maxTfDocLen
        (((processDoc st tf docLen).totalDocLen : ℚ) /
          ((processDoc st tf docLen).totalDocs : ℚ)) := by
  by_cases htf : tf = 0
  · subst htf
    show bm25tf 0 docLen
        (((st.totalDocLen + docLen : Nat) : ℚ) / ((st.totalDocs + 1 : Nat) : ℚ))
      ≤ bm25tf st.maxTf st.maxTfDocLen
        (((st.totalDocLen + docLen : Nat) : ℚ) / ((st.totalDocs + 1 : Nat) : ℚ))
    have h0 : bm25tf 0 docLen
        (((st.totalDocLen + docLen : Nat) : ℚ) / ((st.totalDocs + 1 : Nat) : ℚ)) = 0 := by
      simp [bm25tf]
    rw [h0]
    unfold bm25tf
    apply div_nonneg
    · positivity
    · have hd : (0 : ℚ) ≤ (2 / 5) * (st.maxTfDocLen : ℚ) /
          (((st.totalDocLen + docLen : Nat) : ℚ) / ((st.totalDocs + 1 : Nat) : ℚ)) := by
        positivity
      have hm : (0 : ℚ) ≤ (st.maxTf : ℚ) := Nat.cast_nonneg _
      nlinarith [hd, hm]
  · simp only [processDoc, if_neg htf]
    split
    · exact le_refl _
    · rename_i hcmp
      exact not_lt.mp hcmp

theorem C6_final_average_counterexample :
    (2, 100) ∈ [(2, 100), (1, 1), (0, 500)] ∧
    bm25tf (processDocs [(2, 100), (1, 1), (0, 500)]).maxTf
        (processDocs [(2, 100), (1, 1), (0, 500)]).maxTfDocLen
        (((processDocs [(2, 100), (1, 1), (0, 500)]).totalDocLen : ℚ) /
          ((processDocs [(2, 100), (1, 1), (0, 500)]).totalDocs : ℚ))
      < bm25tf 2 100
        (((processDocs [(2, 100), (1, 1), (0, 500)]).totalDocLen : ℚ) /
          ((processDocs [(2, 100), (1, 1), (0, 500)]).totalDocs : ℚ)) := by
  constructor
  · simp
  · norm_num [processDocs, processDoc, bm25tf]

/-- C5 (amended): the `reqspace` stored at word 0 of every appended block is
the 7-word header, plus the compressed docid count, plus the mode extras
(compressed tf area + 1; position area + 2), plus the Bloom filter word
count plus one — the `+ filterSize + 1` term is unconditional, so a
non-positional block without Bloom filters occupies `8 + dcsize` words, not
`7 + dcsize`. -/
theorem C5_reqspace (pool : SegmentPool) (infos : List BlockInfo) (tailP headP : Int)
    (inv : PoolInv pool infos tailP headP) (c : AppendCall) (hc : ValidCall c)
    (hbpe : pool.bitsPerElement ≤ 2 ^ 20) (hseg : pool.segment + 1 < 2 ^ 31) :
    ∃ b' : BlockInfo,
      (applyCall pool c tailP).2 = ptrOfB b' ∧
      (applyCall pool c tailP).1.mem b'.seg b'.off = Int.ofNat b'.reqspace ∧
      b'.reqspace = 7 +
        (OPT4 (if pool.reverse then (callData c).reverse else callData c) true).length +
        extraWords pool c +
        ((if pool.bloomEnabled then
            computeBloomFilterLength (callData c).length pool.bitsPerElement else 0) + 1) := by
  cases c with
  | nonpos d =>
    obtain ⟨h1, h2, h3⟩ := hc
    obtain ⟨b', g1, _, g4, g5⟩ :=
      compressAndAddNonPositional_step pool infos tailP headP inv d h1 h2 h3 hbpe hseg
    refine ⟨b', g1, (g5.facts b' (by simp)).w0, ?_⟩
    simp only [callData, extraWords]
    rw [g4]
    omega
  | tfonly d t =>
    obtain ⟨h1, h2, h3, h4⟩ := hc
    obtain ⟨b', g1, _, g4, g5⟩ :=
      compressAndAddTfOnly_step pool infos tailP headP inv d t h1 h2 h3 h4 hbpe hseg
    refine ⟨b', g1, (g5.facts b' (by simp)).w0, ?_⟩
    simp only [callData, extraWords]
    rw [g4]
    omega
  | positional d t ps =>
    obtain ⟨h1, h2, h3, h4, h5⟩ := hc
    obtain ⟨b', g1, _, g4, g5⟩ :=
      compressAndAddPositional_step pool infos tailP headP inv d t ps h1 h2 h3 h4 h5 hbpe hseg
    refine ⟨b', g1, (g5.facts b' (by simp)).w0, ?_⟩
    simp only [callData, extraWords]
    rw [g4]
    omega

theorem C5_reqspace_witness :
    PoolInv (createSegmentPool 1 false false 0 0) [] UNDEFINED_POINTER UNDEFINED_POINTER ∧
    ValidCall (AppendCall.nonpos [1]) ∧
    (createSegmentPool 1 false false 0 0).bitsPerElement ≤ 2 ^ 20 ∧
    (createSegmentPool 1 false false 0 0).segment + 1 < 2 ^ 31 ∧
    (∃ b' : BlockInfo,
      (applyCall (createSegmentPool 1 false false 0 0) (AppendCall.nonpos [1])
        UNDEFINED_POINTER).2 = ptrOfB b' ∧
      (applyCall (createSegmentPool 1 false false 0 0) (AppendCall.nonpos [1])
        UNDEFINED_POINTER).1.mem b'.seg b'.off = Int.ofNat b'.reqspace ∧
      b'.reqspace = 7 +
        (OPT4 (if (createSegmentPool 1 false false 0 0).reverse
          then (callData (AppendCall.nonpos [1])).reverse
          else callData (AppendCall.nonpos [1])) true).length +
        extraWords (createSegmentPool 1 false false 0 0) (AppendCall.nonpos [1]) +
        ((if (createSegmentPool 1 false false 0 0).bloomEnabled then
            computeBloomFilterLength (callData (AppendCall.nonpos [1])).length
              (createSegmentPool 1 false false 0 0).bitsPerElement else 0) + 1)) :=
  ⟨PoolInv_create 1 false false 0 0, by decide, by decide, by decide,
   C5_reqspace (createSegmentPool 1 false false 0 0) [] UNDEFINED_POINTER UNDEFINED_POINTER
     (PoolInv_create 1 false false 0 0) (AppendCall.nonpos [1])
     (by decide) (by decide) (by decide)⟩

theorem C5_counterexample :
    (compressAndAddNonPositional (createSegmentPool 1 false false 0 0) [1]
        UNDEFINED_POINTER).1.mem 0 0 ≠ Int.ofNat (7 + 1) := by
  decide

/-- C4: on any chain built by a sequence of `compressAndAdd*` calls, the
sentinel sits exactly at the block reached last in traversal order — the
most recently appended block in forward mode, the first appended block in
reverse mode: `nextPointer` answers `UNDEFINED_POINTER` there and at no
earlier block of the traversal. -/
theorem C4_next_sentinel (numberOfPools nbHash bitsPerElement : Nat)
    (reverse bloomEnabled : Bool) (cs : List AppendCall)
    (hv : ∀ c ∈ cs, ValidCall c) (hbpe : bitsPerElement ≤ 2 ^ 20)
    (hcnt : cs.length < 2 ^ 31) :
    ∃ infos : List BlockInfo,
      infos.map ptrOfB
        = chainTrace (createSegmentPool numberOfPools reverse bloomEnabled nbHash
            bitsPerElement) UNDEFINED_POINTER cs ∧
      (∀ b, (if reverse then infos.head? else infos.getLast?) = some b →
        nextPointer (buildChain (createSegmentPool numberOfPools reverse bloomEnabled nbHash
          bitsPerElement) cs).1 (ptrOfB b) = UNDEFINED_POINTER) ∧
      (∀ b ∈ (if reverse then infos.reverse else infos).dropLast,
        nextPointer (buildChain (createSegmentPool numberOfPools reverse bloomEnabled nbHash
          bitsPerElement) cs).1 (ptrOfB b) ≠ UNDEFINED_POINTER) := by
  obtain ⟨infos', g1, g2, g3⟩ := buildChainFrom_inv cs
    (createSegmentPool numberOfPools reverse bloomEnabled nbHash bitsPerElement) []
    UNDEFINED_POINTER UNDEFINED_POINTER
    (PoolInv_create numberOfPools reverse bloomEnabled nbHash bitsPerElement)
    hv hbpe (by show 0 + cs.length < 2 ^ 31; omega)
  rw [List.nil_append] at g3
  have hchain := ChainAt_of_PoolInv _ _ _ _ g3
  have hrev : (buildChainFrom (createSegmentPool numberOfPools reverse bloomEnabled nbHash
      bitsPerElement) UNDEFINED_POINTER UNDEFINED_POINTER cs).1.reverse = reverse :=
    buildChainFrom_fst_reverse cs _ _ _
  rw [hrev] at hchain
  refine ⟨infos', g2, ?_, ?_⟩
  · intro b hb
    apply chain_next_last _ _ b hchain
    by_cases hr : reverse = true
    · rw [if_pos hr] at hb ⊢
      rw [List.getLast?_reverse]
      exact hb
    · rw [if_neg hr] at hb ⊢
      exact hb
  · intro b hb
    exact chain_next_dropLast _ _ hchain b hb

theorem C4_next_sentinel_witness :
    (∀ c ∈ [AppendCall.nonpos [1], AppendCall.nonpos [2]], ValidCall c) ∧
    (0 : Nat) ≤ 2 ^ 20 ∧
    ([AppendCall.nonpos [1], AppendCall.nonpos [2]].length : Nat) < 2 ^ 31 ∧
    (∃ infos : List BlockInfo,
      infos.map ptrOfB
        = chainTrace (createSegmentPool 1 false false 0 0) UNDEFINED_POINTER
            [AppendCall.nonpos [1], AppendCall.nonpos [2]] ∧
      (∀ b, (if false then infos.head? else infos.getLast?) = some b →
        nextPointer (buildChain (createSegmentPool 1 false false 0 0)
          [AppendCall.nonpos [1], AppendCall.nonpos [2]]).1 (ptrOfB b)
          = UNDEFINED_POINTER) ∧
      (∀ b ∈ (if false then infos.reverse else infos).dropLast,
        nextPointer (buildChain (createSegmentPool 1 false false 0 0)
          [AppendCall.nonpos [1], AppendCall.nonpos [2]]).1 (ptrOfB b)
          ≠ UNDEFINED_POINTER)) :=
  ⟨by decide, by decide, by decide,
   C4_next_sentinel 1 0 0 false false [AppendCall.nonpos [1], AppendCall.nonpos [2]]
     (by decide) (by decide) (by decide)⟩

/-- C1 (amended): traversing a chain of `compressAndAddNonPositional` blocks
from its head and decoding each block yields the ingested runs themselves —
in call order in forward mode, and in reverse call order with each run kept
in its original inner order in reverse mode; concatenated this is
`(reverse ? runs.reverse : runs).flatten`, not the reverse of the flattened
docid sequence. -/
theorem C1_roundtrip (numberOfPools nbHash bitsPerElement : Nat)
    (reverse bloomEnabled : Bool) (runs : List (List Nat)) (fuel : Nat)
    (hv : ∀ r ∈ runs, r ≠ [] ∧ (∀ x ∈ r, x < 2 ^ 32) ∧ r.length ≤ BLOCK_SIZE)
    (hbpe : bitsPerElement ≤ 2 ^ 20) (hcnt : runs.length < 2 ^ 31)
    (hfuel : runs.length ≤ fuel) :
    chainDecode
        (buildChain (createSegmentPool numberOfPools reverse bloomEnabled nbHash
          bitsPerElement) (runs.map AppendCall.nonpos)).1
        (buildChain (createSegmentPool numberOfPools reverse bloomEnabled nbHash
          bitsPerElement) (runs.map AppendCall.nonpos)).2.2 fuel
      = (if reverse then runs.reverse else runs) ∧
    (chainDecode
        (buildChain (createSegmentPool numberOfPools reverse bloomEnabled nbHash
          bitsPerElement) (runs.map AppendCall.nonpos)).1
        (buildChain (createSegmentPool numberOfPools reverse bloomEnabled nbHash
          bitsPerElement) (runs.map AppendCall.nonpos)).2.2 fuel).flatten
      = (if reverse then runs.reverse else runs).flatten := by
  unfold buildChain
  obtain ⟨infos', g1, g2, g3⟩ := buildChainFrom_inv (runs.map AppendCall.nonpos)
    (createSegmentPool numberOfPools reverse bloomEnabled nbHash bitsPerElement) []
    UNDEFINED_POINTER UNDEFINED_POINTER
    (PoolInv_create numberOfPools reverse bloomEnabled nbHash bitsPerElement)
    (by
      intro c hc
      obtain ⟨r, hr, rfl⟩ := List.mem_map.mp hc
      exact hv r hr)
    hbpe
    (by show 0 + (runs.map AppendCall.nonpos).length < 2 ^ 31; simp; omega)
  rw [List.nil_append] at g3
  have hruns : infos'.map BlockInfo.run = runs := by
    rw [g1, List.map_map]
    have hco : callData ∘ AppendCall.nonpos = id := rfl
    rw [hco, List.map_id]
  have hlen : infos'.length = runs.length := by
    have := congrArg List.length hruns
    simpa using this
  have hchain := ChainAt_of_PoolInv _ _ _ _ g3
  have hrev : (buildChainFrom (createSegmentPool numberOfPools reverse bloomEnabled nbHash
      bitsPerElement) UNDEFINED_POINTER UNDEFINED_POINTER (runs.map AppendCall.nonpos)).1.reverse
      = reverse :=
    buildChainFrom_fst_reverse _ _ _ _
  rw [hrev] at hchain
  have hhead := head_of_traversal _ _ _ _ g3
  rw [hrev] at hhead
  have hdec := chainDecode_chain _ (if reverse then infos'.reverse else infos') fuel hchain
    (by
      by_cases hr : reverse = true <;> simp [hr, hlen] <;> omega)
  rw [← hhead] at hdec
  have hmap : (if reverse then infos'.reverse else infos').map BlockInfo.run
      = (if reverse then runs.reverse else runs) := by
    by_cases hr : reverse = true
    · rw [if_pos hr, if_pos hr, List.map_reverse, hruns]
    · rw [if_neg hr, if_neg hr, hruns]
  rw [hmap] at hdec
  exact ⟨hdec, by rw [hdec]⟩

theorem C1_counterexample :
    (chainDecode
        (buildChain (createSegmentPool 1 true false 0 0)
          [AppendCall.nonpos [1, 2], AppendCall.nonpos [3, 4]]).1
        (buildChain (createSegmentPool 1 true false 0 0)
          [AppendCall.nonpos [1, 2], AppendCall.nonpos [3, 4]]).2.2 2).flatten
      = [3, 4, 1, 2] ∧
    (chainDecode
        (buildChain (createSegmentPool 1 true false 0 0)
          [AppendCall.nonpos [1, 2], AppendCall.nonpos [3, 4]]).1
        (buildChain (createSegmentPool 1 true false 0 0)
          [AppendCall.nonpos [1, 2], AppendCall.nonpos [3, 4]]).2.2 2).flatten
      ≠ ([1, 2] ++ [3, 4]).reverse := by
  decide

/-- C2 (amended): over a bloom-enabled chain, `containsDocid` advances
through the traversal blocks while the block maximum is below the probe
under the pool's ordering, answers 0 with the pointer set to
`UNDEFINED_POINTER` when the chain runs out, answers 1 on an exact match of
a block maximum while leaving the caller's pointer at its original value
(the equality branch does not move it to the inspected block), and otherwise
answers the Bloom membership bit of the first non-smaller block, moving the
pointer to that block. -/
theorem C2_containsDocid_model (numberOfPools nbHash bitsPerElement : Nat) (reverse : Bool)
    (runs : List (List Nat)) (docid fuel : Nat)
    (hv : ∀ r ∈ runs, r ≠ [] ∧ (∀ x ∈ r, x < 2 ^ 32) ∧ r.length ≤ BLOCK_SIZE)
    (hne : runs ≠ [])
    (hbpe : bitsPerElement ≤ 2 ^ 20) (hcnt : runs.length < 2 ^ 31)
    (hfuel : runs.length ≤ fuel) :
    ∃ bs : List BlockInfo,
      bs.map BlockInfo.run = (if reverse then runs.reverse else runs) ∧
      containsDocid
          (buildChain (createSegmentPool numberOfPools reverse true nbHash bitsPerElement)
            (runs.map AppendCall.nonpos)).1 docid
          (buildChain (createSegmentPool numberOfPools reverse true nbHash bitsPerElement)
            (runs.map AppendCall.nonpos)).2.2 fuel
        = some (containsDocidModel reverse nbHash bitsPerElement
            (buildChain (createSegmentPool numberOfPools reverse true nbHash bitsPerElement)
              (runs.map AppendCall.nonpos)).2.2 docid
            (bs.map (fun b => (b.run, ptrOfB b)))) := by
  unfold buildChain
  obtain ⟨infos', g1, g2, g3⟩ := buildChainFrom_inv (runs.map AppendCall.nonpos)
    (createSegmentPool numberOfPools reverse true nbHash bitsPerElement) []
    UNDEFINED_POINTER UNDEFINED_POINTER
    (PoolInv_create numberOfPools reverse true nbHash bitsPerElement)
    (by
      intro c hc
      obtain ⟨r, hr, rfl⟩ := List.mem_map.mp hc
      exact hv r hr)
    hbpe
    (by show 0 + (runs.map AppendCall.nonpos).length < 2 ^ 31; simp; omega)
  rw [List.nil_append] at g3
  have hruns : infos'.map BlockInfo.run = runs := by
    rw [g1, List.map_map]
    have hco : callData ∘ AppendCall.nonpos = id := rfl
    rw [hco, List.map_id]
  have hlen : infos'.length = runs.length := by
    have h1 := congrArg List.length hruns
    simpa using h1
  have hchain := ChainAt_of_PoolInv _ _ _ _ g3
  have hrev : (buildChainFrom (createSegmentPool numberOfPools reverse true nbHash
      bitsPerElement) UNDEFINED_POINTER UNDEFINED_POINTER
      (runs.map AppendCall.nonpos)).1.reverse = reverse :=
    buildChainFrom_fst_reverse _ _ _ _
  have hbe : (buildChainFrom (createSegmentPool numberOfPools reverse true nbHash
      bitsPerElement) UNDEFINED_POINTER UNDEFINED_POINTER
      (runs.map AppendCall.nonpos)).1.bloomEnabled = true :=
    buildChainFrom_fst_bloomEnabled _ _ _ _
  have hnb : (buildChainFrom (createSegmentPool numberOfPools reverse true nbHash
      bitsPerElement) UNDEFINED_POINTER UNDEFINED_POINTER
      (runs.map AppendCall.nonpos)).1.nbHash = nbHash :=
    buildChainFrom_fst_nbHash _ _ _ _
  have hbp : (buildChainFrom (createSegmentPool numberOfPools reverse true nbHash
      bitsPerElement) UNDEFINED_POINTER UNDEFINED_POINTER
      (runs.map AppendCall.nonpos)).1.bitsPerElement = bitsPerElement :=
    buildChainFrom_fst_bitsPerElement _ _ _ _
  rw [hrev] at hchain
  have hhead := head_of_traversal _ _ _ _ g3
  rw [hrev] at hhead
  have hTlen : (if reverse then infos'.reverse else infos').length = runs.length := by
    by_cases hr : reverse = true <;> simp [hr, hlen]
  refine ⟨if reverse then infos'.reverse else infos', ?_, ?_⟩
  · by_cases hr : reverse = true
    · rw [if_pos hr, if_pos hr, List.map_reverse, hruns]
    · rw [if_neg hr, if_neg hr, hruns]
  · cases htrav : (if reverse then infos'.reverse else infos') with
    | nil =>
      exfalso
      rw [htrav] at hTlen
      simp at hTlen
      exact hne (List.length_eq_zero.mp hTlen.symm)
    | cons hb tb =>
      rw [htrav] at hchain hhead hTlen
      simp only [List.head?_cons, Option.map_some', Option.getD_some] at hhead
      rw [hhead]
      have hfb : BlockFacts _ hb := hchain.1 hb (List.mem_cons_self _ _)
      rw [containsDocid_at _ docid hb fuel hfb]
      have hlt : (hb :: tb).length ≤ fuel := by
        rw [hTlen]
        exact hfuel
      have hloop := containsLoop_chain _ docid (ptrOfB hb) hbe tb hb fuel hchain hlt
      rw [hloop, hrev, hnb, hbp]

theorem C1_roundtrip_witness :
    (∀ r ∈ [[1, 2]], r ≠ [] ∧ (∀ x ∈ r, x < 2 ^ 32) ∧ r.length ≤ BLOCK_SIZE) ∧
    (0 : Nat) ≤ 2 ^ 20 ∧ ([[1, 2]] : List (List Nat)).length < 2 ^ 31 ∧
    ([[1, 2]] : List (List Nat)).length ≤ 1 ∧
    (chainDecode
        (buildChain (createSegmentPool 1 false false 0 0)
          ([[1, 2]].map AppendCall.nonpos)).1
        (buildChain (createSegmentPool 1 false false 0 0)
          ([[1, 2]].map AppendCall.nonpos)).2.2 1
      = (if false then [[1, 2]].reverse else [[1, 2]]) ∧
    (chainDecode
        (buildChain (createSegmentPool 1 false false 0 0)
          ([[1, 2]].map AppendCall.nonpos)).1
        (buildChain (createSegmentPool 1 false false 0 0)
          ([[1, 2]].map AppendCall.nonpos)).2.2 1).flatten
      = (if false then [[1, 2]].reverse else [[1, 2]]).flatten) :=
  ⟨by decide, by decide, by decide, by decide,
   C1_roundtrip 1 0 0 false false [[1, 2]] 1 (by decide) (by decide) (by decide) (by decide)⟩

theorem C2_containsDocid_model_witness :
    (∀ r ∈ [[1, 2]], r ≠ [] ∧ (∀ x ∈ r, x < 2 ^ 32) ∧ r.length ≤ BLOCK_SIZE) ∧
    ([[1, 2]] : List (List Nat)) ≠ [] ∧
    (8 : Nat) ≤ 2 ^ 20 ∧ ([[1, 2]] : List (List Nat)).length < 2 ^ 31 ∧
    ([[1, 2]] : List (List Nat)).length ≤ 1 ∧
    (∃ bs : List BlockInfo,
      bs.map BlockInfo.run = (if false then [[1, 2]].reverse else [[1, 2]]) ∧
      containsDocid
          (buildChain (createSegmentPool 1 false true 1 8)
            ([[1, 2]].map AppendCall.nonpos)).1 2
          (buildChain (createSegmentPool 1 false true 1 8)
            ([[1, 2]].map AppendCall.nonpos)).2.2 1
        = some (containsDocidModel false 1 8
            (buildChain (createSegmentPool 1 false true 1 8)
              ([[1, 2]].map AppendCall.nonpos)).2.2 2
            (bs.map (fun b => (b.run, ptrOfB b))))) :=
  ⟨by decide, by decide, by decide, by decide, by decide,
   C2_containsDocid_model 1 1 8 false [[1, 2]] 2 1
     (by decide) (by decide) (by decide) (by decide) (by decide)⟩

theorem C2_counterexample :
    containsDocid
        (buildChain (createSegmentPool 1 false true 1 8)
          [AppendCall.nonpos [1, 2], AppendCall.nonpos [3, 4]]).1 4
        (buildChain (createSegmentPool 1 false true 1 8)
          [AppendCall.nonpos [1, 2], AppendCall.nonpos [3, 4]]).2.2 2
      = some (1,
          (buildChain (createSegmentPool 1 false true 1 8)
            [AppendCall.nonpos [1, 2], AppendCall.nonpos [3, 4]]).2.2) ∧
    u32 ((buildChain (createSegmentPool 1 false true 1 8)
          [AppendCall.nonpos [1, 2], AppendCall.nonpos [3, 4]]).1.mem
        (ptrSeg (buildChain (createSegmentPool 1 false true 1 8)
          [AppendCall.nonpos [1, 2], AppendCall.nonpos [3, 4]]).2.2)
        (ptrOff (buildChain (createSegmentPool 1 false true 1 8)
          [AppendCall.nonpos [1, 2], AppendCall.nonpos [3, 4]]).2.2 + 3)) = 2 ∧
    (chainTrace (createSegmentPool 1 false true 1 8) UNDEFINED_POINTER
        [AppendCall.nonpos [1, 2], AppendCall.nonpos [3, 4]]).getD 1 0
      ≠ (buildChain (createSegmentPool 1 false true 1 8)
          [AppendCall.nonpos [1, 2], AppendCall.nonpos [3, 4]]).2.2 ∧
    u32 ((buildChain (createSegmentPool 1 false true 1 8)
          [AppendCall.nonpos [1, 2], AppendCall.nonpos [3, 4]]).1.mem
        (ptrSeg ((chainTrace (createSegmentPool 1 false true 1 8) UNDEFINED_POINTER
          [AppendCall.nonpos [1, 2], AppendCall.nonpos [3, 4]]).getD 1 0))
        (ptrOff ((chainTrace (createSegmentPool 1 false true 1 8) UNDEFINED_POINTER
          [AppendCall.nonpos [1, 2], AppendCall.nonpos [3, 4]]).getD 1 0) + 3)) = 4 := by
  decide
